import Mathlib

/-!
# Verification of the Advent-of-Code 2025 solutions

Shallow embedding of the Rust solutions (`src/solutions/day1.rs` … `day7.rs`)
together with proofs and refutations of the specification claims.

Strings are modelled as `List Char`, machine integers as `Nat`/`Int` with
explicit wrapping where the Rust code can overflow, and fallible code as
`Option`.
-/

set_option maxHeartbeats 1000000
set_option maxRecDepth 2000

namespace AoC

/-! ## Shared string and number-parsing helpers -/

/-- ASCII whitespace, as recognised by Rust's `str::trim` on ASCII input. -/
def isWhitespace (c : Char) : Bool :=
  c = ' ' || c = '\t' || c = '\n' || c = '\r'

/-- Rust `str::trim` (ASCII fragment): drop leading and trailing whitespace. -/
def trim (s : List Char) : List Char :=
  (s.dropWhile isWhitespace).reverse.dropWhile isWhitespace |>.reverse

/-- Rust `str::split_once(c)`: split at the first occurrence of `c`. -/
def splitOnceChar (c : Char) : List Char → Option (List Char × List Char)
  | [] => none
  | x :: xs =>
    if x = c then some ([], xs)
    else match splitOnceChar c xs with
      | none => none
      | some (u, v) => some (x :: u, v)

/-- Does `pat` occur as a prefix of `s`?  (Rust `str::starts_with` for string
patterns.) -/
def startsWithStr (pat s : List Char) : Bool :=
  decide (pat <+: s)

/-- Rust `str::split_once(pat)` for a string pattern: split at the first
occurrence of `pat`. -/
def splitOnceStr (pat : List Char) : List Char → Option (List Char × List Char)
  | [] => none
  | x :: xs =>
    if pat <+: (x :: xs) then some ([], (x :: xs).drop pat.length)
    else match splitOnceStr pat xs with
      | none => none
      | some (u, v) => some (x :: u, v)

/-- Value of a decimal digit character, when it is one. -/
def digitVal? (c : Char) : Option Nat :=
  if '0' ≤ c ∧ c ≤ '9' then some (c.toNat - '0'.toNat) else none

/-- Parse a non-empty, all-digit string as a natural number. -/
def parseDigits : List Char → Option Nat
  | [] => none
  | l => go l 0
where
  go : List Char → Nat → Option Nat
    | [], acc => some acc
    | c :: cs, acc =>
      match digitVal? c with
      | none => none
      | some d => go cs (acc * 10 + d)

/-- Rust `str::parse::<u64>()`: an optional `+` sign, then at least one digit,
value below `2^64`. -/
def parseU64 (s : List Char) : Option Nat :=
  let body := match s with
    | '+' :: rest => rest
    | _ => s
  match parseDigits body with
  | none => none
  | some n => if n < 2 ^ 64 then some n else none

/-- Rust `str::parse::<i64>()`: an optional sign, then at least one digit,
value within the `i64` range. -/
def parseI64 (s : List Char) : Option Int :=
  match s with
  | '-' :: rest =>
    match parseDigits rest with
    | none => none
    | some n => if n ≤ 2 ^ 63 then some (-(n : Int)) else none
  | '+' :: rest =>
    match parseDigits rest with
    | none => none
    | some n => if n < 2 ^ 63 then some (n : Int) else none
  | _ =>
    match parseDigits s with
    | none => none
    | some n => if n < 2 ^ 63 then some (n : Int) else none

/-- Reinterpret a `u64` bit pattern as an `i64` (Rust `as i64`). -/
def u64AsI64 (n : Nat) : Int :=
  if n < 2 ^ 63 then (n : Int) else (n : Int) - 2 ^ 64

/-- Reinterpret an `i64` value as a `u64` (Rust `as u64`). -/
def i64AsU64 (z : Int) : Nat :=
  (z % (2 ^ 64)).toNat

/-- Reinterpret an `i64` value as a `u128` (Rust `as u128` sign-extends). -/
def i64AsU128 (z : Int) : Nat :=
  (z % (2 ^ 128)).toNat

/-- Two's-complement wrap of an `i64` arithmetic result: Rust release-mode
overflow semantics (a debug build panics instead of wrapping). -/
def i64Wrap (z : Int) : Int :=
  (z + 2 ^ 63) % 2 ^ 64 - 2 ^ 63

/-- Rust `str::starts_with(c)` for a single character. -/
def startsWithChar (c : Char) : List Char → Bool
  | [] => false
  | x :: _ => x = c

namespace Day1

/-! ## Day 1: dial-rotation counter (`src/solutions/day1.rs`) -/

/-- Parse one rotation string: an `L` or `R` prefix (multiplier `-1` / `1`),
then the distance as a `u64`. -/
def parseRotation (s : List Char) : Option (Int × Nat) :=
  match s with
  | 'L' :: rest =>
    match parseU64 rest with
    | none => none
    | some d => some (-1, d)
  | 'R' :: rest =>
    match parseU64 rest with
    | none => none
    | some d => some (1, d)
  | _ => none

/-- One `puzzle1` loop iteration: position update by
`(((pos + m*dist) % 100) + 100) % 100` on `i64`, counting landings on 0.
`zero_count` is a `u64`, so its increment wraps modulo `2^64`. -/
def step1 (st : Int × Nat) (rot : Int × Nat) : Int × Nat :=
  let dist : Int := u64AsI64 rot.2
  let newPos := (((st.1 + rot.1 * dist).tmod 100) + 100).tmod 100
  (newPos, if newPos = 0 then (st.2 + 1) % 2 ^ 64 else st.2)

/-- `puzzle1`: count rotations that land on 0. -/
def puzzle1 (initPos : Nat) (rotations : List (List Char)) : Option Nat :=
  if initPos > 99 then none
  else
    match rotations.mapM parseRotation with
    | none => none
    | some rots => some (rots.foldl step1 ((initPos : Int), 0)).2

/-- One `puzzle2` loop iteration: add `dist / 100` cast to `u64`, add one
more crossing depending on direction and remainder, update the position with
`rem_euclid`.  `zero_count` is a `u64`, so each addition wraps modulo
`2^64` (release-mode overflow semantics). -/
def step2 (st : Int × Nat) (rot : Int × Nat) : Int × Nat :=
  let dist : Int := u64AsI64 rot.2
  let quot : Int := dist.tdiv 100
  let rem : Int := dist.tmod 100
  let zc1 := (st.2 + i64AsU64 quot) % 2 ^ 64
  let zc2 := if st.1 ≠ 0 ∧ (rot.1 = -1 ∧ rem ≥ st.1 ∨ rot.1 = 1 ∧ st.1 + rem ≥ 100)
    then (zc1 + 1) % 2 ^ 64 else zc1
  ((st.1 + rot.1 * rem) % 100, zc2)

/-- `puzzle2`: count every pass over 0. -/
def puzzle2 (initPos : Nat) (rotations : List (List Char)) : Option Nat :=
  if initPos > 99 then none
  else
    match rotations.mapM parseRotation with
    | none => none
    | some rots => some (rots.foldl step2 ((initPos : Int), 0)).2

/-- The specification's naive reference model: one unit step of the dial. -/
def naiveStep (dir : Int) (pos : Nat) : Nat :=
  if dir = 1 then (pos + 1) % 100 else (pos + 99) % 100

/-- The specification's naive reference model: move the dial one position at
a time for `dist` steps, counting every step at which it points at 0;
returns the final position and the count. -/
def naiveRot (dir : Int) : Nat → Nat → Nat × Nat
  | pos, 0 => (pos, 0)
  | pos, d + 1 =>
    let p := naiveStep dir pos
    let r := naiveRot dir p d
    (r.1, (if p = 0 then 1 else 0) + r.2)

/-- The specification's naive reference model over a command list. -/
def naiveCount (pos : Nat) : List (Int × Nat) → Nat
  | [] => 0
  | r :: rest =>
    let s := naiveRot r.1 pos r.2
    s.2 + naiveCount s.1 rest

end Day1

namespace Day2

/-! ## Day 2: repeated-digit-range summation (`src/solutions/day2.rs`) -/

/-- `NumberRange::from_str`: split at the first `-`, reject leading-zero
endpoints, parse both endpoints as `u64`, reject `to <= from`. -/
def fromStr (input : List Char) : Option (Nat × Nat) :=
  match splitOnceChar '-' input with
  | none => none
  | some (fromS, toS) =>
    if startsWithChar '0' fromS || startsWithChar '0' toS then none
    else
      match parseU64 fromS with
      | none => none
      | some a =>
        match parseU64 toS with
        | none => none
        | some b => if b ≤ a then none else some (a, b)

/-- Number of decimal digits as the Rust code computes it:
`checked_ilog10().unwrap_or(0) + 1`. -/
def numLen (i : Nat) : Nat :=
  Nat.log 10 i + 1

/-- The `puzzle1` per-number test: even digit count and the first half of the
digits equal to the second half. -/
def halvesEqual (i : Nat) : Bool :=
  let len := numLen i
  if ¬ 2 ∣ len then false
  else
    let oeHalfLen := 10 ^ (len / 2)
    decide (i / oeHalfLen = i % oeHalfLen)

/-- The integers of the inclusive range `a..=b`, in order. -/
def rangeList (a b : Nat) : List Nat :=
  List.range' a (b + 1 - a)

/-- `puzzle1` contribution of one comma-separated item. -/
def p1Item (s : List Char) : Nat :=
  match fromStr s with
  | none => 0
  | some (a, b) =>
    let fromLen := numLen a
    let toLen := numLen b
    if fromLen = toLen ∧ ¬ 2 ∣ fromLen then 0
    else ((rangeList a b).filter halvesEqual).sum

/-- `puzzle1` on the list of comma-separated items. -/
def puzzle1Items (items : List (List Char)) : Nat :=
  (items.map p1Item).sum

/-- `puzzle1`. -/
def puzzle1 (input : List Char) : Nat :=
  puzzle1Items (List.splitOn ',' input)

/-- Least-significant-first decimal digits, with structural fuel so that the
kernel can evaluate it. -/
def digitsRev : Nat → Nat → List Nat
  | 0, _ => []
  | fuel + 1, n => if n = 0 then [] else n % 10 :: digitsRev fuel (n / 10)

/-- Decimal-digit string of `i` (most significant first), as digit values;
Rust `i.to_string()`. -/
def decDigits (i : Nat) : List Nat :=
  if i = 0 then [0] else (digitsRev i i).reverse

/-- A pattern repeated `k` times. -/
def repeatPat {α : Type} (w : List α) : Nat → List α
  | 0 => []
  | k + 1 => w ++ repeatPat w k

/-- The `puzzle2` per-number test: concatenate the decimal string with
itself, strip the first and last characters, and look for the original
string in the remainder. -/
def selfConcatTest (i : Nat) : Bool :=
  let s := decDigits i
  let concatS := s ++ s
  decide (s <:+: ((concatS.drop 1).dropLast))

/-- `puzzle2` contribution of one comma-separated item. -/
def p2Item (s : List Char) : Nat :=
  match fromStr s with
  | none => 0
  | some (a, b) => ((rangeList a b).filter selfConcatTest).sum

/-- `puzzle2` on the list of comma-separated items. -/
def puzzle2Items (items : List (List Char)) : Nat :=
  (items.map p2Item).sum

/-- `puzzle2`. -/
def puzzle2 (input : List Char) : Nat :=
  puzzle2Items (List.splitOn ',' input)

/-- The day-2 test input from the Rust test module. -/
def testInput : List Char :=
  ("11-22,95-115,998-1012,1188511880-1188511890,222220-222224,1698522-1698528,"
    ++ "446443-446449,38593856-38593862,565653-565659,824824821-824824827,"
    ++ "2121212118-2121212124").toList

/-- The error condition claimed for `NumberRange::from_str`: no `-`
separator, a leading-zero endpoint, an unparsable endpoint, or the second
number strictly smaller than the first. -/
def fromStrErrClaimed (s : List Char) : Bool :=
  match splitOnceChar '-' s with
  | none => true
  | some (fromS, toS) =>
    startsWithChar '0' fromS || startsWithChar '0' toS ||
    match parseU64 fromS, parseU64 toS with
    | some a, some b => decide (b < a)
    | _, _ => true

/-- The actual error condition of `NumberRange::from_str`: as claimed, but
with equal bounds also rejected (`to <= from`). -/
def fromStrErrActual (s : List Char) : Bool :=
  match splitOnceChar '-' s with
  | none => true
  | some (fromS, toS) =>
    startsWithChar '0' fromS || startsWithChar '0' toS ||
    match parseU64 fromS, parseU64 toS with
    | some a, some b => decide (b ≤ a)
    | _, _ => true

end Day2

namespace Day3

/-! ## Day 3: maximum-subsequence digit selection (`src/solutions/day3.rs`) -/

/-- The digits of one input line (`chars().filter_map(|c| c.to_digit(10))`). -/
def lineDigits (s : List Char) : List Nat :=
  s.filterMap digitVal?

/-- `format!` concatenation of decimal strings followed by `parse`: the value
of writing the numbers of `l` one after another in decimal. -/
def decCatList (l : List Nat) : Nat :=
  l.foldl (fun acc d => acc * 10 ^ (Day2.decDigits d).length + d) 0

/-- The `puzzle1` per-line scan: replace the first slot by any strictly
larger digit while at least one digit remains after it (index at most
`last_i - 1`), resetting the second slot; otherwise grow the second slot. -/
def p1Go : List Nat → Nat → Nat → Nat × Nat → Nat × Nat
  | [], _, _, ab => ab
  | d :: rest, i, d1MaxI, (a, b) =>
    if d > a ∧ i ≤ d1MaxI then p1Go rest (i + 1) d1MaxI (d, 0)
    else if d > b then p1Go rest (i + 1) d1MaxI (a, d)
    else p1Go rest (i + 1) d1MaxI (a, b)

/-- `puzzle1` on one line of digits. -/
def puzzle1Line (digits : List Nat) : Nat :=
  let lastI := digits.length - 1
  let d1MaxI := lastI - 1
  let ab := p1Go digits 0 d1MaxI (0, 0)
  decCatList [ab.1, ab.2]

/-- `puzzle1`: sum the per-line numbers. -/
def puzzle1 (input : List Char) : Nat :=
  ((List.splitOn '\n' input).map (fun s => puzzle1Line (lineDigits s))).sum

/-- The slot window bound `dx_max_i[j]` of `puzzle2`
(`last_i - (12 - j - 1)`, clamped at 0). -/
def dxMax (lastI j : Nat) : Nat :=
  if 11 - j ≤ lastI then lastI - (11 - j) else 0

/-- The `puzzle2` inner loop over the twelve slots: find the first slot the
digit may replace; when it is not the last slot, zero the next slot and stop
(the labelled `continue`). -/
def p2Slots (digit i lastI : Nat) : Nat → List Nat → List Nat
  | _, [] => []
  | j, a :: rest =>
    if digit > a ∧ i ≤ dxMax lastI j then
      match rest with
      | [] => [digit]
      | _ :: rest2 => digit :: 0 :: rest2
    else a :: p2Slots digit i lastI (j + 1) rest

/-- The `puzzle2` outer loop over the line's digits. -/
def p2Go : List Nat → Nat → Nat → List Nat → List Nat
  | [], _, _, arr => arr
  | d :: rest, i, lastI, arr => p2Go rest (i + 1) lastI (p2Slots d i lastI 0 arr)

/-- `puzzle2` on one line of digits. -/
def puzzle2Line (digits : List Nat) : Nat :=
  let lastI := digits.length - 1
  decCatList (p2Go digits 0 lastI (List.replicate 12 0))

/-- `puzzle2`: sum the per-line numbers. -/
def puzzle2 (input : List Char) : Nat :=
  ((List.splitOn '\n' input).map (fun s => puzzle2Line (lineDigits s))).sum

/-- Value of a digit string read as a decimal number. -/
def subseqVal (s : List Nat) : Nat :=
  s.foldl (fun acc d => 10 * acc + d) 0

/-- The maximum numeric value over all length-`k` subsequences of the line's
digits taken in order. -/
def maxSubseq (k : Nat) (l : List Nat) : Nat :=
  ((List.sublistsLen k l).map subseqVal).foldr max 0

/-- The order-preserving single-pass greedy, with the window condition
"at least one digit remains" in place of the index comparison. -/
def greedy2 : List Nat → Nat → Nat → Nat × Nat
  | [], a, b => (a, b)
  | d :: rest, a, b =>
    if d > a ∧ rest ≠ [] then greedy2 rest d 0
    else if d > b then greedy2 rest a d
    else greedy2 rest a b

/-- Largest digit of the line. -/
def maxD (l : List Nat) : Nat :=
  l.foldr max 0

/-- The day-3 test input from the Rust test module. -/
def testInput : List Char :=
  "987654321111111\n811111111111119\n234234234234278\n818181911112111".toList

/-- The counterexample line for the `puzzle2` greedy. -/
def cexLine : List Nat :=
  [1, 1, 1, 2, 0, 0, 1, 1, 0, 0, 0, 0, 0, 0, 0]

/-- Shallow-recursion equivalent of `maxSubseq`, used only to evaluate it on
concrete lines: the best length-`k` value either skips the head digit or
places it first. -/
def bestK : Nat → List Nat → Nat
  | 0, _ => 0
  | _ + 1, [] => 0
  | k + 1, d :: rest =>
    if rest.length < k then bestK (k + 1) rest
    else max (bestK (k + 1) rest) (d * 10 ^ k + bestK k rest)

end Day3

namespace Day4

/-! ## Day 4: grid adjacency erosion (`src/solutions/day4.rs`)

The grid is the `Vec<Vec<char>>` produced by `input.lines().map(collect)`.
Both puzzles run the same double loop over the index box
`0..len_i × 0..len_j` (`len_i` = number of rows, `len_j` = length of the
*first* row), so the embedding works directly on the parsed matrix. -/

/-- The eight `(row_offset, col_offset)` pairs of `check_coordinates`. -/
def checkCoordinates : List (Int × Int) :=
  [(0, 1), (0, -1), (1, 0), (-1, 0), (-1, 1), (1, 1), (-1, -1), (1, -1)]

/-- `len_j`: length of the first row (`unwrap_or(0)` on an empty grid). -/
def lenJ (m : List (List Char)) : Nat :=
  (m.headD []).length

/-- `matrix[i][j]`.  The Rust indexing panics out of bounds; every claim about
day 4 assumes a rectangular grid, where all accesses below stay inside the
rows, so the `getD` default is never exercised. -/
def cell (m : List (List Char)) (i j : Nat) : Char :=
  (m.getD i []).getD j '.'

/-- The inner `for c in 0..c_len` loop: count the offsets whose target stays
inside the `len_i × len_j` box and holds `'@'`. -/
def neighborCount (m : List (List Char)) (i j : Nat) : Nat :=
  (checkCoordinates.filter (fun c =>
    let i2 : Int := (i : Int) + c.1
    let j2 : Int := (j : Int) + c.2
    decide (0 ≤ i2 ∧ i2 < (m.length : Int) ∧ 0 ≤ j2 ∧ j2 < (lenJ m : Int) ∧
      cell m i2.toNat j2.toNat = '@'))).length

/-- Cell `(i, j)` is counted (puzzle 1) / marked (puzzle 2): it holds `'@'`
(the `continue` guard) and fewer than 4 of its 8 neighbours do. -/
def removableB (m : List (List Char)) (i j : Nat) : Bool :=
  decide (cell m i j = '@' ∧ neighborCount m i j < 4)

/-- One full sweep of the double loop, counting the removable cells.  This is
the body of `puzzle1` and the per-pass increment of `final_count` in
`puzzle2`. -/
def removableCount (m : List (List Char)) : Nat :=
  ((List.range m.length).map (fun i =>
    ((List.range (lenJ m)).filter (fun j => removableB m i j)).length)).sum

/-- `puzzle1` after parsing: one counting sweep. -/
def puzzle1 (m : List (List Char)) : Nat :=
  removableCount m

/-- One pass of `puzzle2`'s `while` body: `temp_matrix` equals `matrix` with
every removable cell overwritten by `'x'`; the pass then replaces `matrix`
with it.  Rebuilt cell-by-cell over the `len_i × len_j` box, which is the
whole grid when the input is rectangular. -/
def markPass (m : List (List Char)) : List (List Char) :=
  (List.range m.length).map (fun i =>
    (List.range (lenJ m)).map (fun j =>
      if removableB m i j then 'x' else cell m i j))

/-- Number of `'@'` cells in the index box — the termination measure of the
`while keep_checking` loop: each marking pass erases at least one `'@'`. -/
def boxCount (m : List (List Char)) : Nat :=
  ((List.range m.length).map (fun i =>
    ((List.range (lenJ m)).filter (fun j => decide (cell m i j = '@'))).length)).sum

/-- The `while keep_checking` loop of `puzzle2`, with an explicit pass budget:
stop (as the code does) on the first pass that marks nothing, otherwise add
the pass's count and continue on the marked grid.  `boxCount m + 1` passes
always suffice (`removableCount_finalAux` below), so the budgeted recursion
agrees with the unbounded loop. -/
def erodeAux : Nat → List (List Char) → Nat
  | 0, _ => 0
  | fuel + 1, m =>
    if removableCount m = 0 then 0
    else removableCount m + erodeAux fuel (markPass m)

/-- The grid state in which `puzzle2`'s loop terminates. -/
def finalAux : Nat → List (List Char) → List (List Char)
  | 0, m => m
  | fuel + 1, m =>
    if removableCount m = 0 then m else finalAux fuel (markPass m)

/-- `puzzle2` after parsing: total number of cells marked before the loop
reaches its fixed point. -/
def puzzle2 (m : List (List Char)) : Nat :=
  erodeAux (boxCount m + 1) m

/-- The fixed-point grid reached by `puzzle2`'s loop. -/
def finalGrid (m : List (List Char)) : List (List Char) :=
  finalAux (boxCount m + 1) m

/-- The 10×10 grid of day 4's unit tests. -/
def testInput : List (List Char) :=
  ["..@@.@@@@.".toList, "@@@.@.@.@@".toList, "@@@@@.@.@@".toList,
   "@.@@@@..@.".toList, "@@.@@@@.@@".toList, ".@@@@@@@.@".toList,
   ".@.@.@.@@@".toList, "@.@@@.@@@@".toList, ".@@@@@@@@.".toList,
   "@.@.@@@.@.".toList]

end Day4

namespace Day7

/-! ## Day 7: ray splitting (`src/solutions/day7.rs`)

The input file is a flat byte string `data`; `Grid::try_from` sets
`columns` to the length of the first line *including* its newline and
`rows` to `file length / columns`, and both traversals read the byte at
offset `r * columns + c`.  Every offset they touch satisfies
`r * columns + c < rows * columns ≤ data.length`, so the `getD` default is
never exercised on a grid produced by `try_from`.

`rays` (puzzle 1) is a `HashSet<usize>`; `ray_map` (puzzle 2) is a
`HashMap<usize, Vec<RayNodeRef>>` whose *values* (the node vectors) never
influence the branch conditions — `build_graph` only tests whether `c` is a
key — so the embedding keeps the key set, modelled as a duplicate-free
list.  The `Option` result models the `c - 1` underflow panic on an
unsigned index, reached exactly when a `'^'` under an active ray is met at
column 0. -/

/-- `HashSet::insert` / `HashMap::entry(..).or_default()` on the key set. -/
def hsInsert (c : Nat) (s : List Nat) : List Nat :=
  if c ∈ s then s else c :: s

/-- `HashSet::remove` / `HashMap::remove` on the key set. -/
def hsRemove (c : Nat) (s : List Nat) : List Nat :=
  s.filter (fun x => decide (x ≠ c))

/-- The `for rr in rays_to_remove` loop. -/
def applyRemove (s : List Nat) (l : List Nat) : List Nat :=
  l.foldl (fun s c => hsRemove c s) s

/-- The `for ra in rays_to_add` loop. -/
def applyAdd (s : List Nat) (l : List Nat) : List Nat :=
  l.foldl (fun s c => hsInsert c s) s

/-- The inner `for c in 0..self.columns` loop of `count_ray_splits`,
processing the remaining column list `cs` while accumulating
`rays_to_remove`, `rays_to_add` and the row's split count; at the end of
the row the pending removals and additions are applied.  Finding `'S'` in
row 0 inserts the column directly into the ray set and breaks.  A `'^'`
under an active ray pushes `c`, `c - 1` and (under the always-true guard
`c < columns`) `c + 1`; at `c = 0` the `c - 1` on a `usize` underflows and
the program panics, modelled as `none`. -/
def scanCols (data : List Char) (columns r : Nat) :
    List Nat → List Nat → List Nat → List Nat → Nat → Option (List Nat × Nat)
  | [], rays, toRemove, toAdd, splits =>
    some (applyAdd (applyRemove rays toRemove) toAdd, splits)
  | c :: cs, rays, toRemove, toAdd, splits =>
    if r = 0 ∧ data.getD (r * columns + c) '.' = 'S' then
      some (applyAdd (applyRemove (hsInsert c rays) toRemove) toAdd, splits)
    else if data.getD (r * columns + c) '.' = '^' ∧ c ∈ rays then
      match c with
      | 0 => none
      | c1 + 1 =>
        scanCols data columns r cs rays (toRemove ++ [c1 + 1])
          (toAdd ++ [c1] ++ (if c1 + 1 < columns then [c1 + 2] else []))
          (splits + 1)
    else scanCols data columns r cs rays toRemove toAdd splits

/-- The outer `for r in (0..self.rows).step_by(2)` loop of
`count_ray_splits`: thread the ray set and the running split total through
the even rows. -/
def runRows (data : List Char) (columns : Nat) :
    List Nat → List Nat → Nat → Option (List Nat × Nat)
  | [], rays, splits => some (rays, splits)
  | r :: rs, rays, splits =>
    match scanCols data columns r (List.range columns) rays [] [] 0 with
    | none => none
    | some (rays2, s) => runRows data columns rs rays2 (splits + s)

/-- The even row indices visited by `(0..rows).step_by(2)`. -/
def evenRows (rows : Nat) : List Nat :=
  (List.range rows).filter (fun r => decide (r % 2 = 0))

/-- `Grid::count_ray_splits`: `none` models the underflow panic. -/
def countRaySplits (data : List Char) (rows columns : Nat) : Option Nat :=
  (runRows data columns (evenRows rows) [] 0).map (fun p => p.2)

/-- The inner column loop of `build_graph`, tracking the key set of
`ray_map` and whether the root node has been set.  Branch for branch it
mirrors `scanCols`: the `'S'` branch stores the root and maps its column
to it; the `'^'` branch runs only when `c` is a key of `ray_map`, removes
`c`, creates children at `c - 1` (underflowing at column 0, modelled as
`none`) and, under the always-true guard `c < columns`, at `c + 1`. -/
def scanColsG (data : List Char) (columns r : Nat) :
    List Nat → List Nat → Bool → List Nat → List Nat → Option (List Nat × Bool)
  | [], keys, root, toRemove, toAdd =>
    some (applyAdd (applyRemove keys toRemove) toAdd, root)
  | c :: cs, keys, root, toRemove, toAdd =>
    if r = 0 ∧ data.getD (r * columns + c) '.' = 'S' then
      some (applyAdd (applyRemove (hsInsert c keys) toRemove) toAdd, true)
    else if data.getD (r * columns + c) '.' = '^' ∧ c ∈ keys then
      match c with
      | 0 => none
      | c1 + 1 =>
        scanColsG data columns r cs keys root (toRemove ++ [c1 + 1])
          (toAdd ++ [c1] ++ (if c1 + 1 < columns then [c1 + 2] else []))
    else scanColsG data columns r cs keys root toRemove toAdd

/-- The outer row loop of `build_graph`. -/
def runRowsG (data : List Char) (columns : Nat) :
    List Nat → List Nat → Bool → Option (List Nat × Bool)
  | [], keys, root => some (keys, root)
  | r :: rs, keys, root =>
    match scanColsG data columns r (List.range columns) keys root [] [] with
    | none => none
    | some (keys2, root2) => runRowsG data columns rs keys2 root2

/-- `Grid::build_graph` up to the data relevant to its control flow: the
final `ray_map` key set on success; `none` models both the `c - 1`
underflow panic and the final `panic!("failed to identify the root
node")`. -/
def buildGraph (data : List Char) (rows columns : Nat) : Option (List Nat) :=
  match runRowsG data columns (evenRows rows) [] false with
  | none => none
  | some (keys, root) => if root then some keys else none

/-- The traversal state meets a splitter in column 0: the byte at the start
of row `r` is `'^'` and column 0 carries an active ray. -/
def rowPanics (data : List Char) (columns r : Nat) (rays : List Nat) : Bool :=
  decide (0 < columns ∧ data.getD (r * columns) '.' = '^' ∧ 0 ∈ rays)

/-- Step `k` of the traversal hits a splitter in column 0: the first `k`
even rows process fine and leave a ray set under which the next row panics
in column 0.  This is the negation, step by step, of C10's precondition
that no splitter aligned with an active ray ever occurs in column 0. -/
def hitAux (data : List Char) (columns : Nat) (rs keys : List Nat) (k : Nat) : Bool :=
  match runRows data columns (rs.take k) keys 0, rs.drop k with
  | some (rays, _), r :: _ => rowPanics data columns r rays
  | _, _ => false

/-- `col0Hit data rows columns k`: step `k` of the full traversal (from the
empty ray set over all even rows) meets a splitter in column 0. -/
def col0Hit (data : List Char) (rows columns : Nat) (k : Nat) : Bool :=
  hitAux data columns (evenRows rows) [] k

/-- A well-formed 3×2 grid (`"S\n.\n^\n"`: `columns` = first line length
including the newline = 2, `rows` = 6 / 2 = 3) whose start ray sits in
column 0 and meets a `'^'` there in row 2. -/
def cexData : List Char :=
  "S\n.\n^\n".toList

/-- A well-formed 3×4 grid whose ray never touches column 0. -/
def okData : List Char :=
  ".S.\n...\n.^.\n".toList

/-- The file contents of day 7's unit tests: 16 lines of 16 bytes each, so
`try_from` yields `columns = 16` and `rows = 256 / 16 = 16`. -/
def testInput : List Char :=
  (".......S.......\n...............\n.......^.......\n...............\n"
    ++ "......^.^......\n...............\n.....^.^.^.....\n...............\n"
    ++ "....^.^...^....\n...............\n...^.^...^.^...\n...............\n"
    ++ "..^...^.....^..\n...............\n.^.^.^.^.^...^.\n...............\n").toList

end Day7

namespace Day5

/-! ## Day 5: interval containment (`src/solutions/day5.rs`)

An interval is the pair of endpoints of a Rust `RangeInclusive<i64>`. -/

/-- `parse_inclusive_range`: split on `-`, demand exactly two parts, trim each
and parse it as an `i64`. -/
def parseInclusiveRange (s : List Char) : Option (Int × Int) :=
  match (List.splitOn '-' s) with
  | [a, b] =>
    match parseI64 (trim a), parseI64 (trim b) with
    | some x, some y => some (x, y)
    | _, _ => none
  | _ => none

/-- The `IntervalNode` tree; `leaf` stands for Rust's `None` child. -/
inductive ITree where
  | leaf : ITree
  | node (interval : Int × Int) (mx : Int) (left right : ITree) : ITree
deriving Repr, DecidableEq

namespace ITree

/-- Subtree-maximum of a child, defaulting to the parent candidate when the
child is absent (mirrors the two `if let Some(..)` updates). -/
def childMax (t : ITree) (acc : Int) : Int :=
  match t with
  | leaf => acc
  | node _ mx _ _ => max acc mx

/-- Number of nodes. -/
def size : ITree → Nat
  | leaf => 0
  | node _ _ l r => 1 + l.size + r.size

/-- Intervals stored in the tree, left to right. -/
def toList : ITree → List (Int × Int)
  | leaf => []
  | node iv _ l r => l.toList ++ iv :: r.toList

end ITree

/-- `IntervalNode::build_from_intervals`: root at the middle index of the
(sorted) slice, children built from the two remaining slices, subtree max
accumulated from the root's end and the children's maxima. -/
def buildFromIntervals : List (Int × Int) → ITree
  | [] => ITree.leaf
  | x :: xs =>
    let mid := (x :: xs).length / 2
    have hmid : mid < (x :: xs).length := Nat.div_lt_self (by simp) (by norm_num)
    let r := (x :: xs).get ⟨mid, hmid⟩
    let left := buildFromIntervals ((x :: xs).take mid)
    let right := buildFromIntervals ((x :: xs).drop (mid + 1))
    ITree.node r (ITree.childMax right (ITree.childMax left r.2)) left right
termination_by l => l.length
decreasing_by
  · simp
    omega
  · simp
    omega

/-- `RangeInclusive::contains` on an interval. -/
def ivContains (iv : Int × Int) (p : Int) : Bool :=
  decide (iv.1 ≤ p ∧ p ≤ iv.2)

/-- Sum of the sizes of the trees waiting in the queue. -/
def queueSize (q : List ITree) : Nat :=
  (q.map ITree.size).sum

/-- `IntervalNode::contains`: breadth-first traversal with an explicit queue;
children are pushed to the back, nodes are popped from the front. -/
def bfsContains (q : List ITree) (p : Int) : Bool :=
  match q with
  | [] => false
  | ITree.leaf :: rest => bfsContains rest p
  | ITree.node iv _ l r :: rest =>
    if ivContains iv p then true
    else bfsContains (rest ++ [l, r] ) p
termination_by (queueSize q, q.length)
decreasing_by
  · simp [queueSize]
    omega
  · simp [queueSize, ITree.size]
    omega

/-- `IntervalNode::contains` entered at the root. -/
def treeContains (t : ITree) (p : Int) : Bool :=
  bfsContains [t] p

/-- `IntervalNode::from`: sort by interval start (stable merge sort, like
Rust's `sort_by_key`), then build. -/
def fromIntervals (l : List (Int × Int)) : ITree :=
  buildFromIntervals (l.mergeSort (fun a b => decide (a.1 ≤ b.1)))

/-- The counting stage of `puzzle1`: build the tree from the intervals and
count the query integers it contains. -/
def countContained (ivs : List (Int × Int)) (ints : List Int) : Nat :=
  (ints.filter (fun p => treeContains (fromIntervals ivs) p)).length

/-- `puzzle1`: split the trimmed input into the interval section and the
integer section, parse both, build the tree and count the contained query
integers.  `none` models the panics on malformed input. -/
def puzzle1 (input : List Char) : Option Nat :=
  match splitOnceStr ['\n', '\n'] (trim input) with
  | none => none
  | some (intervalsStr, integersStr) =>
    match (List.splitOn '\n' intervalsStr).mapM parseInclusiveRange with
    | none => none
    | some ivs =>
      if ivs = [] then none
      else
        match (List.splitOn '\n' integersStr).mapM parseI64 with
        | none => none
        | some ints => some (countContained ivs ints)

/-- The merge pass of `puzzle2`: fold the sorted tail, merging intervals that
start at most one past the current end.  The `i64` expressions
`current_end + 1` and `current_end - current_start + 1` wrap on overflow
(`i64Wrap`), the closed segment's length is cast `as u128` (`i64AsU128`),
and the `u128` accumulator `total` wraps as well, modelled by reducing each
addition modulo `2^128` (every summand is already below `2^128`, so the
innermost term needs no reduction). -/
def mergeLoop : List (Int × Int) → Int → Int → Nat
  | [], curStart, curEnd =>
    i64AsU128 (i64Wrap (i64Wrap (curEnd - curStart) + 1))
  | iv :: rest, curStart, curEnd =>
    if iv.1 ≤ i64Wrap (curEnd + 1) then mergeLoop rest curStart (max curEnd iv.2)
    else (i64AsU128 (i64Wrap (i64Wrap (curEnd - curStart) + 1))
      + mergeLoop rest iv.1 iv.2) % 2 ^ 128

/-- `puzzle2` on the parsed interval list: sort by start, then merge. -/
def puzzle2Core (ivs : List (Int × Int)) : Nat :=
  match ivs.mergeSort (fun a b => decide (a.1 ≤ b.1)) with
  | [] => 0
  | iv :: rest => mergeLoop rest iv.1 iv.2

/-- `puzzle2`: parse the interval section and run the sort-and-merge pass. -/
def puzzle2 (input : List Char) : Option Nat :=
  match splitOnceStr ['\n', '\n'] (trim input) with
  | none => none
  | some (intervalsStr, _) =>
    match (List.splitOn '\n' intervalsStr).mapM parseInclusiveRange with
    | none => none
    | some ivs => some (puzzle2Core ivs)

/-! ### Correctness of the interval tree -/

theorem toList_buildFromIntervals (l : List (Int × Int)) :
    (buildFromIntervals l).toList = l := by
  have H : ∀ (n : Nat) (l : List (Int × Int)), l.length ≤ n →
      (buildFromIntervals l).toList = l := by
    intro n
    induction n with
    | zero =>
      intro l hl
      have : l = [] := List.length_eq_zero.mp (Nat.le_zero.mp hl)
      subst this
      simp [buildFromIntervals, ITree.toList]
    | succ n ih =>
      intro l hl
      match l with
      | [] => simp [buildFromIntervals, ITree.toList]
      | x :: xs =>
        rw [buildFromIntervals]
        simp only [ITree.toList]
        have hmid : (x :: xs).length / 2 < (x :: xs).length :=
          Nat.div_lt_self (by simp) (by norm_num)
        rw [ih _ (by simp at hl ⊢; omega), ih _ (by simp at hl ⊢; omega)]
        rw [List.get_eq_getElem, ← List.drop_eq_getElem_cons hmid, List.take_append_drop]
  exact H l.length l le_rfl

theorem bfsContains_iff (q : List ITree) (p : Int) :
    bfsContains q p = true ↔ ∃ t ∈ q, ∃ iv ∈ t.toList, ivContains iv p := by
  have H : ∀ (n : Nat) (q : List ITree), 2 * queueSize q + q.length ≤ n →
      (bfsContains q p = true ↔ ∃ t ∈ q, ∃ iv ∈ t.toList, ivContains iv p) := by
    intro n
    induction n with
    | zero =>
      intro q hq
      have : q = [] := by
        match q with
        | [] => rfl
        | _ :: _ => simp at hq
      subst this
      simp [bfsContains]
    | succ n ih =>
      intro q hq
      match q with
      | [] => simp [bfsContains]
      | ITree.leaf :: rest =>
        rw [bfsContains, ih rest (by simp [queueSize, ITree.size] at hq ⊢; omega)]
        simp [ITree.toList]
      | ITree.node iv mx l r :: rest =>
        rw [bfsContains]
        by_cases hc : ivContains iv p = true
        · rw [if_pos hc]
          constructor
          · intro _
            exact ⟨ITree.node iv mx l r, by simp, iv, by simp [ITree.toList], hc⟩
          · intro _
            rfl
        · rw [if_neg hc]
          rw [ih (rest ++ [l, r]) (by simp [queueSize, ITree.size] at hq ⊢; omega)]
          constructor
          · rintro ⟨t, ht, ⟨w, hw, hcw⟩⟩
            rcases List.mem_append.mp ht with h1 | h1
            · exact ⟨t, by simp [h1], w, hw, hcw⟩
            · refine ⟨ITree.node iv mx l r, by simp, w, ?_, hcw⟩
              simp only [List.mem_cons, List.not_mem_nil, or_false] at h1
              rcases h1 with rfl | rfl <;> simp [ITree.toList, hw]
          · rintro ⟨t, ht, ⟨w, hw, hcw⟩⟩
            rcases List.mem_cons.mp ht with rfl | h1
            · simp only [ITree.toList, List.mem_append, List.mem_cons] at hw
              rcases hw with h2 | h2 | h2
              · exact ⟨l, by simp, w, h2, hcw⟩
              · exact absurd hcw (by rw [← h2] at hc; simpa using hc)
              · exact ⟨r, by simp, w, h2, hcw⟩
            · exact ⟨t, by simp [h1], w, hw, hcw⟩
  exact H (2 * queueSize q + q.length) q le_rfl

theorem treeContains_iff (t : ITree) (p : Int) :
    treeContains t p = true ↔ ∃ iv ∈ t.toList, ivContains iv p := by
  rw [treeContains, bfsContains_iff]
  simp

/-- The tree built by `IntervalNode::from` answers containment for exactly the
input intervals. -/
theorem fromIntervals_contains (l : List (Int × Int)) (p : Int) :
    treeContains (fromIntervals l) p = true ↔ ∃ r ∈ l, r.1 ≤ p ∧ p ≤ r.2 := by
  rw [fromIntervals, treeContains_iff, toList_buildFromIntervals]
  constructor
  · rintro ⟨iv, hm, hc⟩
    exact ⟨iv, (List.mergeSort_perm l _).mem_iff.mp hm, by simpa [ivContains] using hc⟩
  · rintro ⟨iv, hm, hc⟩
    exact ⟨iv, (List.mergeSort_perm l _).mem_iff.mpr hm, by simpa [ivContains] using hc⟩

/-- Bool form of the containment result. -/
theorem treeContains_eq_any (l : List (Int × Int)) (p : Int) :
    treeContains (fromIntervals l) p = l.any (fun r => ivContains r p) := by
  rw [Bool.eq_iff_iff, fromIntervals_contains, List.any_eq_true]
  simp [ivContains]

/-! ### Correctness of the sort-and-merge pass -/

/-- The union of the input intervals as a finite set of integers. -/
def unionF (ivs : List (Int × Int)) : Finset Int :=
  ivs.foldr (fun iv acc => Finset.Icc iv.1 iv.2 ∪ acc) ∅

theorem mem_unionF (ivs : List (Int × Int)) (x : Int) :
    x ∈ unionF ivs ↔ ∃ iv ∈ ivs, x ∈ Finset.Icc iv.1 iv.2 := by
  induction ivs with
  | nil => simp [unionF]
  | cons iv rest ih =>
    simp only [unionF, List.foldr_cons, Finset.mem_union, List.mem_cons]
    rw [show List.foldr (fun iv acc => Finset.Icc iv.1 iv.2 ∪ acc) ∅ rest = unionF rest from rfl,
        ih]
    constructor
    · rintro (h | ⟨w, hw, hx⟩)
      · exact ⟨iv, Or.inl rfl, h⟩
      · exact ⟨w, Or.inr hw, hx⟩
    · rintro ⟨w, (rfl | hw), hx⟩
      · exact Or.inl hx
      · exact Or.inr ⟨w, hw, hx⟩

theorem unionF_perm {l₁ l₂ : List (Int × Int)} (h : l₁.Perm l₂) :
    unionF l₁ = unionF l₂ := by
  ext x
  rw [mem_unionF, mem_unionF]
  constructor
  · rintro ⟨w, hw, hx⟩
    exact ⟨w, h.mem_iff.mp hw, hx⟩
  · rintro ⟨w, hw, hx⟩
    exact ⟨w, h.mem_iff.mpr hw, hx⟩

/-- `i64Wrap` is the identity on values that fit in `i64`. -/
theorem i64Wrap_eq_self (z : Int) (h1 : -(2 ^ 63) ≤ z) (h2 : z ≤ 2 ^ 63 - 1) :
    i64Wrap z = z := by
  rw [i64Wrap, Int.emod_eq_of_lt (by omega) (by omega)]
  ring

/-- `as u128` is the plain value on nonnegative `i64` inputs. -/
theorem i64AsU128_nonneg (z : Int) (h1 : 0 ≤ z) (h2 : z < 2 ^ 128) :
    i64AsU128 z = z.toNat := by
  rw [i64AsU128, Int.emod_eq_of_lt h1 h2]

/-- The union of intervals inside a window `[lo, hi]` has at most
`hi + 1 - lo` elements. -/
theorem unionF_card_le (ivs : List (Int × Int)) (lo hi : Int)
    (hlo : ∀ iv ∈ ivs, lo ≤ iv.1) (hhi : ∀ iv ∈ ivs, iv.2 ≤ hi) :
    (unionF ivs).card ≤ (hi + 1 - lo).toNat := by
  have hsub : unionF ivs ⊆ Finset.Icc lo hi := by
    intro x hx
    rcases (mem_unionF ivs x).mp hx with ⟨w, hw, hxw⟩
    simp only [Finset.mem_Icc] at hxw ⊢
    have h1 := hlo w hw
    have h2 := hhi w hw
    omega
  calc (unionF ivs).card ≤ (Finset.Icc lo hi).card := Finset.card_le_card hsub
    _ = (hi + 1 - lo).toNat := Int.card_Icc lo hi

theorem mergeLoop_eq (lo hi : Int) (hlo0 : -(2 ^ 63) ≤ lo)
    (hfit : hi - lo ≤ 2 ^ 63 - 2) (hhi : hi ≤ 2 ^ 63 - 2) :
    ∀ (rest : List (Int × Int)) (cs ce : Int),
    (∀ iv ∈ rest, iv.1 ≤ iv.2) →
    rest.Pairwise (fun a b => a.1 ≤ b.1) →
    cs ≤ ce →
    (∀ iv ∈ rest, cs ≤ iv.1) →
    lo ≤ cs → ce ≤ hi →
    (∀ iv ∈ rest, lo ≤ iv.1) →
    (∀ iv ∈ rest, iv.2 ≤ hi) →
    mergeLoop rest cs ce = (Finset.Icc cs ce ∪ unionF rest).card := by
  intro rest
  induction rest with
  | nil =>
    intro cs ce hv hs hcs hstart hlocs hce hlor hhir
    simp only [mergeLoop, unionF, List.foldr_nil, Finset.union_empty, Int.card_Icc]
    rw [i64Wrap_eq_self (ce - cs) (by omega) (by omega),
        i64Wrap_eq_self (ce - cs + 1) (by omega) (by omega),
        i64AsU128_nonneg _ (by omega) (by omega)]
    congr 1
    ring
  | cons iv rest' ih =>
    intro cs ce hv hs hcs hstart hlocs hce hlor hhir
    simp only [List.pairwise_cons] at hs
    rw [mergeLoop]
    rw [i64Wrap_eq_self (ce + 1) (by omega) (by omega)]
    by_cases hm : iv.1 ≤ ce + 1
    · rw [if_pos hm]
      rw [ih cs (max ce iv.2) (fun w hw => hv w (List.mem_cons_of_mem _ hw)) hs.2
            (le_trans hcs (le_max_left _ _))
            (fun w hw => hstart w (List.mem_cons_of_mem _ hw))
            hlocs
            (max_le hce (hhir iv (List.mem_cons_self _ _)))
            (fun w hw => hlor w (List.mem_cons_of_mem _ hw))
            (fun w hw => hhir w (List.mem_cons_of_mem _ hw))]
      congr 1
      have hIcc : Finset.Icc cs (max ce iv.2) = Finset.Icc cs ce ∪ Finset.Icc iv.1 iv.2 := by
        ext x
        simp only [Finset.mem_Icc, Finset.mem_union]
        have hcsiv : cs ≤ iv.1 := hstart iv (List.mem_cons_self _ _)
        omega
      rw [hIcc]
      rw [show unionF (iv :: rest') = Finset.Icc iv.1 iv.2 ∪ unionF rest' from rfl]
      rw [Finset.union_assoc]
    · rw [if_neg hm]
      have hiv : iv.1 ≤ iv.2 := hv iv (List.mem_cons_self _ _)
      rw [i64Wrap_eq_self (ce - cs) (by omega) (by omega),
          i64Wrap_eq_self (ce - cs + 1) (by omega) (by omega),
          i64AsU128_nonneg _ (by omega) (by omega)]
      rw [ih iv.1 iv.2 (fun w hw => hv w (List.mem_cons_of_mem _ hw)) hs.2 hiv
            (fun w hw => hs.1 w hw)
            (hlor iv (List.mem_cons_self _ _))
            (hhir iv (List.mem_cons_self _ _))
            (fun w hw => hlor w (List.mem_cons_of_mem _ hw))
            (fun w hw => hhir w (List.mem_cons_of_mem _ hw))]
      have hcard_le := unionF_card_le (iv :: rest') lo hi hlor hhir
      have hlt : (ce - cs + 1).toNat + (Finset.Icc iv.1 iv.2 ∪ unionF rest').card
          < 2 ^ 128 := by
        rw [show Finset.Icc iv.1 iv.2 ∪ unionF rest' = unionF (iv :: rest') from rfl]
        omega
      rw [Nat.mod_eq_of_lt hlt]
      have hdisj : Disjoint (Finset.Icc cs ce) (Finset.Icc iv.1 iv.2 ∪ unionF rest') := by
        rw [Finset.disjoint_left]
        intro x hx hx2
        simp only [Finset.mem_Icc] at hx
        rcases Finset.mem_union.mp hx2 with h2 | h2
        · simp only [Finset.mem_Icc] at h2
          omega
        · rcases (mem_unionF _ _).mp h2 with ⟨w, hw, hxw⟩
          simp only [Finset.mem_Icc] at hxw
          have := hs.1 w hw
          omega
      have hcard : (Finset.Icc cs ce ∪ (Finset.Icc iv.1 iv.2 ∪ unionF rest')).card
          = (Finset.Icc cs ce).card + (Finset.Icc iv.1 iv.2 ∪ unionF rest').card :=
        Finset.card_union_of_disjoint hdisj
      rw [show unionF (iv :: rest') = Finset.Icc iv.1 iv.2 ∪ unionF rest' from rfl, hcard,
          Int.card_Icc, show ce + 1 - cs = ce - cs + 1 from by ring]

/-- `puzzle2`'s sort-and-merge pass computes the cardinality of the union of
the (valid) intervals, provided all endpoints fit in a window `[lo, hi]`
small enough that none of the loop's `i64` computations overflows. -/
theorem puzzle2Core_eq_card (ivs : List (Int × Int)) (lo hi : Int) (hne : ivs ≠ [])
    (hv : ∀ iv ∈ ivs, iv.1 ≤ iv.2)
    (hlo0 : -(2 ^ 63) ≤ lo)
    (hb : ∀ iv ∈ ivs, lo ≤ iv.1 ∧ iv.2 ≤ hi)
    (hfit : hi - lo ≤ 2 ^ 63 - 2) (hhi : hi ≤ 2 ^ 63 - 2) :
    puzzle2Core ivs = (unionF ivs).card := by
  rw [puzzle2Core]
  have hperm := List.mergeSort_perm ivs (fun a b => decide (a.1 ≤ b.1))
  have hsorted := @List.sorted_mergeSort (Int × Int)
    (fun (a b : Int × Int) => decide (a.1 ≤ b.1))
    (fun a b c hab hbc => by
      simp only [decide_eq_true_eq] at hab hbc ⊢
      omega)
    (fun a b => by
      simp only [Bool.or_eq_true, decide_eq_true_eq]
      omega)
    ivs
  match hm : ivs.mergeSort (fun a b => decide (a.1 ≤ b.1)) with
  | [] =>
    rw [hm] at hperm
    exact absurd hperm.symm.eq_nil hne
  | iv :: rest =>
    rw [hm] at hperm hsorted
    have hsorted' : List.Pairwise (fun a b : Int × Int => a.1 ≤ b.1) (iv :: rest) := by
      refine hsorted.imp ?_
      intro a b hab
      simpa using hab
    show mergeLoop rest iv.1 iv.2 = (unionF ivs).card
    rw [mergeLoop_eq lo hi hlo0 hfit hhi rest iv.1 iv.2
          (fun w hw => hv w (hperm.mem_iff.mp (List.mem_cons_of_mem _ hw)))
          (List.pairwise_cons.mp hsorted').2
          (hv iv (hperm.mem_iff.mp (List.mem_cons_self _ _)))
          (fun w hw => (List.pairwise_cons.mp hsorted').1 w hw)
          (hb iv (hperm.mem_iff.mp (List.mem_cons_self _ _))).1
          (hb iv (hperm.mem_iff.mp (List.mem_cons_self _ _))).2
          (fun w hw => (hb w (hperm.mem_iff.mp (List.mem_cons_of_mem _ hw))).1)
          (fun w hw => (hb w (hperm.mem_iff.mp (List.mem_cons_of_mem _ hw))).2)]
    rw [show Finset.Icc iv.1 iv.2 ∪ unionF rest = unionF (iv :: rest) from rfl]
    rw [unionF_perm hperm]

/-- The counting stage, rephrased through the tree-containment result. -/
theorem countContained_eq (ivs : List (Int × Int)) (ints : List Int) :
    countContained ivs ints
      = (ints.filter (fun p => ivs.any (fun r => ivContains r p))).length := by
  rw [countContained]
  congr 1
  exact List.filter_congr (fun p _ => treeContains_eq_any ivs p)

/-- The day-5 test input from the Rust test module. -/
def testInput : List Char :=
  "3-5\n10-14\n16-20\n12-18\n\n1\n5\n8\n11\n17\n32".toList

/-- Parsed intervals of the test input. -/
def testIntervals : List (Int × Int) := [(3, 5), (10, 14), (16, 20), (12, 18)]

theorem puzzle1_test_step :
    puzzle1 testInput = some (countContained testIntervals [1, 5, 8, 11, 17, 32]) := by
  rfl

theorem puzzle2_test_step :
    puzzle2 testInput = some (puzzle2Core testIntervals) := by
  rfl

end Day5

/-- **C1** For every non-empty list of inclusive integer intervals and every
query integer `p`, the interval tree built by `IntervalNode::from` /
`build_from_intervals` answers `contains(p) = true` iff at least one interval
of the list contains `p`; consequently day 5 `puzzle1` returns the count of
query integers contained in at least one input interval, and on the test
input it returns 3. -/
theorem claim_C1 :
    (∀ (l : List (Int × Int)), l ≠ [] → ∀ p : Int,
      (Day5.treeContains (Day5.fromIntervals l) p = true ↔ ∃ r ∈ l, r.1 ≤ p ∧ p ≤ r.2))
    ∧ (∀ (ivs : List (Int × Int)) (ints : List Int), ivs ≠ [] →
      Day5.countContained ivs ints
        = (ints.filter (fun p => decide (∃ r ∈ ivs, r.1 ≤ p ∧ p ≤ r.2))).length)
    ∧ Day5.puzzle1 Day5.testInput = some 3 := by
  refine ⟨fun l _ p => Day5.fromIntervals_contains l p, fun ivs ints _ => ?_, ?_⟩
  · rw [Day5.countContained_eq]
    congr 1
    refine List.filter_congr (fun p _ => ?_)
    rw [Bool.eq_iff_iff]
    simp [Day5.ivContains]
  · rw [Day5.puzzle1_test_step, Day5.countContained_eq]
    decide

/-- Witness for C1: a concrete non-empty interval list and query point. -/
theorem claim_C1_witness :
    Day5.treeContains (Day5.fromIntervals [((3 : Int), (5 : Int))]) 4 = true :=
  (claim_C1.1 [((3 : Int), (5 : Int))] (by decide) 4).mpr
    ⟨(3, 5), by simp, by decide, by decide⟩

/-- **C5** (corrected) For every input whose interval section parses into
intervals with `start ≤ end`, *provided* the merge pass's `i64` arithmetic
never overflows — all endpoints lie in a window `[lo, hi]` spanning at most
`2^63 - 1` values with `hi ≤ 2^63 - 2`, so that `current_end + 1` and
`current_end - current_start + 1` stay in range — day 5 `puzzle2` returns
the cardinality of the union of the intervals as sets of integers; on the
test intervals it returns 14.  Without such a bound the `i64` length
computation wraps (see the counterexample). -/
theorem claim_C5 :
    (∀ (ivs : List (Int × Int)) (lo hi : Int), ivs ≠ [] →
      (∀ iv ∈ ivs, iv.1 ≤ iv.2) →
      -(2 ^ 63) ≤ lo → (∀ iv ∈ ivs, lo ≤ iv.1 ∧ iv.2 ≤ hi) →
      hi - lo ≤ 2 ^ 63 - 2 → hi ≤ 2 ^ 63 - 2 →
      Day5.puzzle2Core ivs = (Day5.unionF ivs).card)
    ∧ Day5.puzzle2 Day5.testInput = some 14 := by
  refine ⟨fun ivs lo hi hne hv hlo0 hb hfit hhi =>
      Day5.puzzle2Core_eq_card ivs lo hi hne hv hlo0 hb hfit hhi, ?_⟩
  rw [Day5.puzzle2_test_step,
      Day5.puzzle2Core_eq_card Day5.testIntervals 3 20 (by decide) (by decide)
        (by norm_num) (by decide) (by norm_num) (by norm_num)]
  decide

/-- Counterexample for C5 as stated: the single interval
`0-9223372036854775807` parses with `start ≤ end` (it is `0..=i64::MAX`)
and covers `2^63` integers, but the merge pass computes
`current_end - current_start + 1` in `i64`, which wraps to `-2^63` and is
then cast `as u128`, so `puzzle2` returns `2^128 - 2^63` instead. -/
theorem claim_C5_counterexample :
    Day5.parseInclusiveRange "0-9223372036854775807".toList
        = some (0, 2 ^ 63 - 1)
      ∧ Day5.puzzle2Core [((0 : Int), (2 ^ 63 - 1 : Int))] = 2 ^ 128 - 2 ^ 63
      ∧ (Day5.unionF [((0 : Int), (2 ^ 63 - 1 : Int))]).card = 2 ^ 63
      ∧ (2 ^ 128 - 2 ^ 63 : Nat) ≠ 2 ^ 63 := by
  refine ⟨by decide, ?_, ?_, by norm_num⟩
  · simp only [Day5.puzzle2Core, List.mergeSort_singleton]
    decide
  · rw [show Day5.unionF [((0 : Int), (2 ^ 63 - 1 : Int))]
        = Finset.Icc 0 (2 ^ 63 - 1) ∪ ∅ from rfl]
    rw [Finset.union_empty, Int.card_Icc]
    decide

/-- Witness for C5: the merge pass on the concrete test intervals, whose
endpoints stay far from the `i64` boundaries. -/
theorem claim_C5_witness :
    Day5.puzzle2Core Day5.testIntervals = (Day5.unionF Day5.testIntervals).card :=
  claim_C5.1 Day5.testIntervals 3 20 (by decide) (by decide) (by norm_num)
    (by decide) (by norm_num) (by norm_num)


namespace Day2

theorem fromStr_none_iff (s : List Char) :
    fromStr s = none ↔ fromStrErrActual s = true := by
  rw [fromStr, fromStrErrActual]
  cases hsp : splitOnceChar '-' s with
  | none => simp
  | some uv =>
    obtain ⟨u, v⟩ := uv
    by_cases hz : startsWithChar '0' u || startsWithChar '0' v
    · simp [hz]
    · simp only [hz, if_false, Bool.false_or]
      cases hu : parseU64 u with
      | none => simp
      | some a =>
        cases hv : parseU64 v with
        | none => simp
        | some b =>
          by_cases hba : b ≤ a
          · simp [hba]
          · simp [hba]

theorem fromStr_some (s : List Char) (a b : Nat) (h : fromStr s = some (a, b)) :
    a < b := by
  rw [fromStr] at h
  rcases hsp : splitOnceChar '-' s with _ | ⟨u, v⟩ <;> rw [hsp] at h
  · simp at h
  · by_cases hz : startsWithChar '0' u || startsWithChar '0' v
    · simp [hz] at h
    · simp only [hz, if_false] at h
      rcases hu : parseU64 u with _ | a' <;> rw [hu] at h
      · simp at h
      · rcases hv : parseU64 v with _ | b' <;> rw [hv] at h
        · simp at h
        · by_cases hba : b' ≤ a'
          · simp [hba] at h
          · simp only [hba, decide_eq_true_eq, if_neg, Option.some_inj] at h
            simp at h
            obtain ⟨rfl, rfl⟩ := h
            omega

theorem fromStr_pos (s u v : List Char) (a b : Nat)
    (hsp : splitOnceChar '-' s = some (u, v))
    (hu0 : startsWithChar '0' u = false) (hv0 : startsWithChar '0' v = false)
    (hu : parseU64 u = some a) (hv : parseU64 v = some b) (hab : a < b) :
    fromStr s = some (a, b) := by
  simp only [fromStr, hsp, hu0, hv0, hu, hv, Bool.or_false, Bool.false_eq_true, if_false]
  rw [if_neg (by omega)]

theorem p1Item_skip (s : List Char) (h : fromStr s = none) : p1Item s = 0 := by
  rw [p1Item, h]

theorem p2Item_skip (s : List Char) (h : fromStr s = none) : p2Item s = 0 := by
  rw [p2Item, h]

theorem puzzle1Items_filter (items : List (List Char)) :
    puzzle1Items items = puzzle1Items (items.filter (fun s => (fromStr s).isSome)) := by
  induction items with
  | nil => rfl
  | cons s rest ih =>
    by_cases h : (fromStr s).isSome
    · simp only [puzzle1Items, List.filter_cons, h, if_true, List.map_cons, List.sum_cons]
      rw [show (rest.map p1Item).sum = puzzle1Items rest from rfl, ih]
      rfl
    · have hn : fromStr s = none := Option.not_isSome_iff_eq_none.mp h
      simp only [puzzle1Items, List.filter_cons, h, if_false, List.map_cons, List.sum_cons,
        p1Item_skip s hn, Nat.zero_add]
      exact ih

theorem puzzle2Items_filter (items : List (List Char)) :
    puzzle2Items items = puzzle2Items (items.filter (fun s => (fromStr s).isSome)) := by
  induction items with
  | nil => rfl
  | cons s rest ih =>
    by_cases h : (fromStr s).isSome
    · simp only [puzzle2Items, List.filter_cons, h, if_true, List.map_cons, List.sum_cons]
      rw [show (rest.map p2Item).sum = puzzle2Items rest from rfl, ih]
      rfl
    · have hn : fromStr s = none := Option.not_isSome_iff_eq_none.mp h
      simp only [puzzle2Items, List.filter_cons, h, if_false, List.map_cons, List.sum_cons,
        p2Item_skip s hn, Nat.zero_add]
      exact ih

/-! ### Word combinatorics for the self-concatenation test -/

theorem get_idx_congr {α : Type} (l : List α) {i j : Nat} (hij : i = j) (hi : i < l.length) :
    l.get ⟨i, hi⟩ = l.get ⟨j, hij ▸ hi⟩ := by
  subst hij
  rfl

theorem tail_append_of_ne_nil {α : Type} (l₁ l₂ : List α) (h : l₁ ≠ []) :
    (l₁ ++ l₂).tail = l₁.tail ++ l₂ := by
  rcases l₁ with _ | ⟨a, t⟩
  · exact absurd rfl h
  · rfl

/-- The centre slice `concat_str[1..len-1]` of the doubled string. -/
theorem center_eq {α : Type} (s : List α) (hs : s ≠ []) :
    ((s ++ s).drop 1).dropLast = s.tail ++ s.dropLast := by
  have h1 : (s ++ s).drop 1 = s.tail ++ s := by
    rcases s with _ | ⟨c, s'⟩
    · rfl
    · rfl
  rw [h1, List.dropLast_append_of_ne_nil _ hs]

/-- The original string occurs in the centre slice of its self-concatenation
iff it is a non-trivial rotation of itself. -/
theorem infix_center_iff {α : Type} (s : List α) (hs : s ≠ []) :
    s <:+: ((s ++ s).drop 1).dropLast ↔
      ∃ p, 1 ≤ p ∧ p + 1 ≤ s.length ∧ s.rotate p = s := by
  rw [center_eq s hs]
  have hn : 1 ≤ s.length := List.length_pos.mpr hs
  constructor
  · rintro ⟨u, v, huv⟩
    have hlen := congrArg List.length huv
    simp only [List.length_append, List.length_tail, List.length_dropLast] at hlen
    have hu2 : u.length + 2 ≤ s.length := by omega
    refine ⟨u.length + 1, by omega, by omega, ?_⟩
    have hSS : (s.head hs :: u) ++ (s ++ (v ++ [s.getLast hs])) = s ++ s := by
      calc (s.head hs :: u) ++ (s ++ (v ++ [s.getLast hs]))
          = s.head hs :: ((u ++ s ++ v) ++ [s.getLast hs]) := by
            simp [List.append_assoc]
        _ = s.head hs :: ((s.tail ++ s.dropLast) ++ [s.getLast hs]) := by rw [huv]
        _ = (s.head hs :: s.tail) ++ (s.dropLast ++ [s.getLast hs]) := by
            rw [show (s.head hs :: s.tail) ++ (s.dropLast ++ [s.getLast hs])
                  = s.head hs :: (s.tail ++ (s.dropLast ++ [s.getLast hs])) from rfl]
            simp [List.append_assoc]
        _ = s ++ s := by rw [List.head_cons_tail, List.dropLast_append_getLast]
    have h2 : s ++ (v ++ [s.getLast hs]) = List.drop (u.length + 1) (s ++ s) := by
      rw [← hSS, show u.length + 1 = (s.head hs :: u).length from by simp, List.drop_left]
    have h3 : List.drop (u.length + 1) (s ++ s)
        = s.drop (u.length + 1) ++ s := List.drop_append_of_le_length (by omega)
    have h4 : List.take s.length (s.drop (u.length + 1) ++ s) = s := by
      rw [← h3, ← h2, List.take_left]
    have h5 : List.take s.length (s.drop (u.length + 1) ++ s)
        = s.drop (u.length + 1) ++ s.take (u.length + 1) := by
      rw [List.take_append_eq_append_take,
          List.take_all_of_le (by simp [List.length_drop]),
          List.length_drop]
      congr 2
      omega
    rw [List.rotate_eq_drop_append_take (by omega), ← h5, h4]
  · rintro ⟨p, hp1, hpn, hrot⟩
    have hD : s = s.drop p ++ s.take p := by
      rw [← List.rotate_eq_drop_append_take (by omega), hrot]
    have hT : s = s.take p ++ s.drop p := (List.take_append_drop p s).symm
    have hTlen : (s.take p).length = p := by
      simp [List.length_take]
      omega
    have hDlen : (s.drop p).length = s.length - p := by simp [List.length_drop]
    have hTne : s.take p ≠ [] := by
      intro hcon
      rw [hcon] at hTlen
      simp at hTlen
      omega
    have hDne : s.drop p ≠ [] := by
      intro hcon
      rw [hcon] at hDlen
      simp at hDlen
      omega
    refine ⟨(s.take p).tail, (s.drop p).dropLast, ?_⟩
    have htail : s.tail = (s.take p).tail ++ s.drop p := by
      calc s.tail = (s.take p ++ s.drop p).tail := by rw [← hT]
        _ = (s.take p).tail ++ s.drop p := tail_append_of_ne_nil _ _ hTne
    have hdropLast : s.dropLast = s.take p ++ (s.drop p).dropLast := by
      calc s.dropLast = (s.take p ++ s.drop p).dropLast := by rw [← hT]
        _ = s.take p ++ (s.drop p).dropLast := List.dropLast_append_of_ne_nil _ hDne
    rw [htail, hdropLast]
    calc (s.take p).tail ++ s ++ (s.drop p).dropLast
        = (s.take p).tail ++ (s.drop p ++ s.take p) ++ (s.drop p).dropLast := by rw [← hD]
      _ = (s.take p).tail ++ s.drop p ++ (s.take p ++ (s.drop p).dropLast) := by
          simp [List.append_assoc]

theorem repeatPat_length {α : Type} (w : List α) (k : Nat) :
    (repeatPat w k).length = k * w.length := by
  induction k with
  | zero => simp [repeatPat]
  | succ k ih =>
    simp only [repeatPat, List.length_append, ih]
    ring

theorem repeatPat_comm {α : Type} (w : List α) (k : Nat) :
    repeatPat w k ++ w = w ++ repeatPat w k := by
  induction k with
  | zero => simp [repeatPat]
  | succ k ih =>
    calc repeatPat w (k + 1) ++ w = w ++ (repeatPat w k ++ w) := by
          simp [repeatPat, List.append_assoc]
      _ = w ++ (w ++ repeatPat w k) := by rw [ih]
      _ = w ++ repeatPat w (k + 1) := rfl

theorem get_repeatPat {α : Type} (w : List α) (hw : w ≠ []) (k i : Nat)
    (h : i < (repeatPat w k).length) :
    (repeatPat w k).get ⟨i, h⟩
      = w.get ⟨i % w.length, Nat.mod_lt i (List.length_pos.mpr hw)⟩ := by
  induction k generalizing i with
  | zero => simp [repeatPat] at h
  | succ k ih =>
    have h' : i < (w ++ repeatPat w k).length := h
    by_cases hi : i < w.length
    · have : (repeatPat w (k + 1)).get ⟨i, h⟩ = w.get ⟨i, hi⟩ :=
        List.get_append_left w (repeatPat w k) hi
      rw [this, get_idx_congr w (Nat.mod_eq_of_lt hi).symm hi]
    · push_neg at hi
      have hlt : i - w.length < (repeatPat w k).length := by
        simp only [repeatPat, List.length_append] at h
        omega
      have : (repeatPat w (k + 1)).get ⟨i, h⟩ = (repeatPat w k).get ⟨i - w.length, hlt⟩ :=
        List.get_append_right w (repeatPat w k) hi
      rw [this, ih (i - w.length) hlt,
          get_idx_congr w ((Nat.mod_eq_sub_mod hi).symm) _]

/-- A Bézout coefficient for the gcd, taken modulo `n` so that it stays a
natural number. -/
theorem gcd_mod_combination (p n : Nat) (hn : 0 < n) :
    ∃ a : Nat, a * p % n = Nat.gcd p n % n := by
  have hb := Nat.gcd_eq_gcd_ab p n
  have hnz : (n : Int) ≠ 0 := by exact_mod_cast hn.ne'
  have hA : 0 ≤ Nat.gcdA p n % (n : Int) := Int.emod_nonneg _ hnz
  refine ⟨(Nat.gcdA p n % (n : Int)).toNat, ?_⟩
  have hmodeq : ((Nat.gcdA p n % (n : Int)).toNat : Int) * p ≡ Nat.gcd p n [ZMOD (n : Int)] := by
    rw [Int.toNat_of_nonneg hA]
    have h1 : Nat.gcdA p n % (n : Int) ≡ Nat.gcdA p n [ZMOD (n : Int)] :=
      Int.emod_emod_of_dvd _ dvd_rfl
    have h2 : Nat.gcdA p n % (n : Int) * p ≡ Nat.gcdA p n * p [ZMOD (n : Int)] :=
      h1.mul_right _
    refine h2.trans ?_
    have h3 : (Nat.gcdA p n) * (p : Int) = Nat.gcd p n - n * Nat.gcdB p n := by
      rw [hb]
      ring
    rw [h3]
    have h4 : (n : Int) * Nat.gcdB p n ≡ 0 [ZMOD (n : Int)] :=
      Int.modEq_zero_iff_dvd.mpr (Dvd.intro _ rfl)
    simpa using (Int.ModEq.refl ((Nat.gcd p n : Int))).sub h4
  have : (((Nat.gcdA p n % (n : Int)).toNat * p : Nat) : Int) % n
      = ((Nat.gcd p n : Nat) : Int) % n := by
    push_cast
    exact hmodeq
  rw [← Int.natCast_mod, ← Int.natCast_mod] at this
  exact_mod_cast this

/-- A string equal to a non-trivial rotation of itself is a repeated pattern
with at least two repetitions. -/
theorem rotate_eq_self_power {α : Type} (s : List α) (p : Nat) (hp1 : 1 ≤ p)
    (hpn : p + 1 ≤ s.length) (hrot : s.rotate p = s) :
    ∃ w k, 2 ≤ k ∧ s = repeatPat w k := by
  have hn : 0 < s.length := by omega
  set n := s.length with hndef
  set d := Nat.gcd p n with hddef
  have hdpos : 0 < d := Nat.gcd_pos_of_pos_left n (by omega)
  have hdn : d ∣ n := Nat.gcd_dvd_right p n
  have hdp : d ∣ p := Nat.gcd_dvd_left p n
  have hdlt : d < n := by
    have := Nat.le_of_dvd (by omega) hdp
    omega
  have h1 : ∀ i (h : i < n), s.get ⟨i, h⟩ = s.get ⟨(i + p) % n, Nat.mod_lt _ hn⟩ := by
    intro i h
    have hri : i < (s.rotate p).length := by simp [List.length_rotate]; omega
    have e1 : s.get ⟨i, h⟩ = (s.rotate p).get ⟨i, hri⟩ := by
      rw [List.get_of_eq hrot.symm ⟨i, h⟩]
    rw [e1, List.get_rotate]
  have h2 : ∀ (j : Nat) i (h : i < n),
      s.get ⟨i, h⟩ = s.get ⟨(i + j * p) % n, Nat.mod_lt _ hn⟩ := by
    intro j
    induction j with
    | zero =>
      intro i h
      exact get_idx_congr s (by simp [Nat.mod_eq_of_lt h]) h
    | succ j ih =>
      intro i h
      rw [ih i h, h1 ((i + j * p) % n) (Nat.mod_lt _ hn)]
      rw [get_idx_congr s (show ((i + j * p) % n + p) % n = (i + (j + 1) * p) % n from by
        rw [Nat.mod_add_mod]
        congr 1
        ring) (Nat.mod_lt _ hn)]
  obtain ⟨a, ha⟩ := gcd_mod_combination p n hn
  have h4 : ∀ i (h : i < n), s.get ⟨i, h⟩ = s.get ⟨(i + d) % n, Nat.mod_lt _ hn⟩ := by
    intro i h
    rw [h2 a i h, get_idx_congr s (Nat.ModEq.add_left i ha) (Nat.mod_lt _ hn)]
  have h5 : ∀ i (h : i < n), s.get ⟨i, h⟩
      = s.get ⟨i % d, Nat.lt_of_lt_of_le (Nat.mod_lt i hdpos) (Nat.le_of_dvd hn hdn)⟩ := by
    intro i
    induction i using Nat.strong_induction_on with
    | _ i ihs =>
      intro h
      by_cases hid : i < d
      · exact get_idx_congr s (Nat.mod_eq_of_lt hid).symm h
      · push_neg at hid
        have h6 : i - d < n := by omega
        have h7 := h4 (i - d) h6
        have h8 : (i - d + d) % n = i := by
          rw [Nat.sub_add_cancel hid, Nat.mod_eq_of_lt h]
        have h9 := ihs (i - d) (by omega) h6
        have e1 : s.get ⟨i, h⟩ = s.get ⟨i - d, h6⟩ :=
          ((h7.trans (get_idx_congr s h8 (Nat.mod_lt _ hn)))).symm
        exact e1.trans (h9.trans (get_idx_congr s (Nat.mod_eq_sub_mod hid).symm
          (Nat.lt_of_lt_of_le (Nat.mod_lt _ hdpos) (Nat.le_of_dvd hn hdn))))
  refine ⟨s.take d, n / d, ?_, ?_⟩
  · rcases Nat.lt_or_ge (n / d) 2 with hk | hk
    · exfalso
      have hmul := Nat.div_mul_cancel hdn
      have hle : n ≤ d := by
        calc n = n / d * d := hmul.symm
          _ ≤ 1 * d := Nat.mul_le_mul_right d (by omega)
          _ = d := Nat.one_mul d
      omega
    · exact hk
  · have hwlen : (s.take d).length = d := by
      simp [List.length_take]
      omega
    have hwne : s.take d ≠ [] := by
      intro hcon
      rw [hcon] at hwlen
      simp at hwlen
      omega
    have hlen2 : n = (repeatPat (s.take d) (n / d)).length := by
      rw [repeatPat_length, hwlen, Nat.div_mul_cancel hdn]
    refine List.ext_get (by rw [← hndef, ← hlen2]) ?_
    intro i hi hi2
    rw [get_repeatPat (s.take d) hwne (n / d) i hi2]
    have him2 : i % d < d := Nat.mod_lt _ hdpos
    have him2n : i % d < n := by omega
    have hmd : i % d = i % (s.take d).length := by rw [hwlen]
    calc s.get ⟨i, hi⟩ = s.get ⟨i % d, him2n⟩ := h5 i hi
      _ = (s.take d).get ⟨i % d, by rw [hwlen]; exact him2⟩ := List.get_take s him2n him2
      _ = (s.take d).get ⟨i % (s.take d).length, by
            rw [hwlen]
            exact him2⟩ := get_idx_congr (s.take d) hmd (by rw [hwlen]; exact him2)

/-- A repeated pattern is invariant under rotation by the pattern length. -/
theorem power_rotate {α : Type} (w : List α) (k : Nat) (hk : 2 ≤ k) (hw : w ≠ []) :
    (repeatPat w k).rotate w.length = repeatPat w k := by
  have h2 : 2 * w.length ≤ k * w.length := Nat.mul_le_mul_right _ hk
  have hlen : w.length ≤ (repeatPat w k).length := by
    rw [repeatPat_length]
    omega
  rw [List.rotate_eq_drop_append_take hlen]
  obtain ⟨k', rfl⟩ : ∃ k', k = k' + 1 := ⟨k - 1, by omega⟩
  rw [show repeatPat w (k' + 1) = w ++ repeatPat w k' from rfl,
      List.drop_left, List.take_left]
  exact repeatPat_comm w k'

theorem decDigits_ne_nil (i : Nat) : decDigits i ≠ [] := by
  match i with
  | 0 => simp [decDigits]
  | n + 1 =>
    rw [decDigits, if_neg (Nat.succ_ne_zero n), digitsRev, if_neg (Nat.succ_ne_zero n)]
    simp

/-- The self-concatenation containment test holds exactly for strings that
are a pattern repeated at least twice. -/
theorem selfConcatTest_iff (i : Nat) :
    selfConcatTest i = true ↔ ∃ w k, 2 ≤ k ∧ decDigits i = repeatPat w k := by
  have hne : decDigits i ≠ [] := decDigits_ne_nil i
  simp only [selfConcatTest]
  rw [decide_eq_true_iff, infix_center_iff _ hne]
  constructor
  · rintro ⟨p, hp1, hpn, hrot⟩
    exact rotate_eq_self_power _ p hp1 hpn hrot
  · rintro ⟨w, k, hk, hw⟩
    have hwne : w ≠ [] := by
      intro hcon
      subst hcon
      have hz : repeatPat ([] : List Nat) k = [] :=
        List.length_eq_zero.mp (by rw [repeatPat_length]; simp)
      rw [hw, hz] at hne
      exact hne rfl
    refine ⟨w.length, List.length_pos.mpr hwne, ?_, ?_⟩
    · rw [hw, repeatPat_length]
      have h2 : 2 * w.length ≤ k * w.length := Nat.mul_le_mul_right _ hk
      have hwp : 0 < w.length := List.length_pos.mpr hwne
      omega
    · rw [hw]
      exact power_rotate w k hk hwne

end Day2

/-- **C4** For every input string, day 2 `puzzle2` sums, over all parsed
ranges and integers `i` in them, exactly those `i` whose decimal
representation is a digit pattern repeated at least twice: the
self-concatenation test detects exactly this set (first conjunct, an exact
characterisation), and on the eleven-range test set the sum is
4174379265. -/
theorem claim_C4 :
    (∀ i : Nat, Day2.selfConcatTest i = true ↔
       ∃ w k, 2 ≤ k ∧ Day2.decDigits i = Day2.repeatPat w k)
    ∧ Day2.puzzle2 Day2.testInput = 4174379265 := by
  refine ⟨Day2.selfConcatTest_iff, ?_⟩
  decide

/-- **C6** (corrected) `NumberRange::from_str` errors iff the input lacks a
`-`, an endpoint starts with `0`, an endpoint fails to parse as `u64`, or the
second number is smaller than *or equal to* the first (the original claim
omitted equality); for every other `a-b` it returns `Ok(NumberRange(a, b))`. -/
theorem claim_C6 :
    (∀ s : List Char, Day2.fromStr s = none ↔ Day2.fromStrErrActual s = true)
    ∧ (∀ (s u v : List Char) (a b : Nat),
        splitOnceChar '-' s = some (u, v) →
        startsWithChar '0' u = false → startsWithChar '0' v = false →
        parseU64 u = some a → parseU64 v = some b → a < b →
        Day2.fromStr s = some (a, b)) :=
  ⟨Day2.fromStr_none_iff, Day2.fromStr_pos⟩

/-- Counterexample for C6 as stated: `"5-5"` triggers none of the claimed
error conditions, yet `from_str` rejects it. -/
theorem claim_C6_counterexample :
    Day2.fromStr "5-5".toList = none
      ∧ Day2.fromStrErrClaimed "5-5".toList = false := by
  decide

/-- Witness for C6: a concrete accepted range. -/
theorem claim_C6_witness : Day2.fromStr "3-7".toList = some (3, 7) :=
  claim_C6.2 "3-7".toList ['3'] ['7'] 3 7 rfl rfl rfl rfl rfl (by omega)

/-- **C7** Malformed comma-separated items are silently skipped: both day-2
puzzles compute the same value as on the item list with every unparsable
item removed. -/
theorem claim_C7 (input : List Char) :
    Day2.puzzle1 input
      = Day2.puzzle1Items
          ((List.splitOn ',' input).filter (fun s => (Day2.fromStr s).isSome))
    ∧ Day2.puzzle2 input
      = Day2.puzzle2Items
          ((List.splitOn ',' input).filter (fun s => (Day2.fromStr s).isSome)) :=
  ⟨Day2.puzzle1Items_filter (List.splitOn ',' input),
   Day2.puzzle2Items_filter (List.splitOn ',' input)⟩

/-- **C8** (corrected) Ranges parsed by day 2's `NumberRange::from_str`
satisfy `start ≤ end` (indeed `start < end`); day 5's
`parse_inclusive_range` does *not* guarantee the invariant. -/
theorem claim_C8 (s : List Char) (a b : Nat) (h : Day2.fromStr s = some (a, b)) :
    a ≤ b :=
  Nat.le_of_lt (Day2.fromStr_some s a b h)

/-- Counterexample for C8 as stated: day 5's parser accepts `"5-3"` and
returns an inverted range. -/
theorem claim_C8_counterexample :
    Day5.parseInclusiveRange "5-3".toList = some (5, 3) ∧ ¬ ((5 : Int) ≤ 3) := by
  constructor
  · rfl
  · decide

/-- Witness for C8: a concrete parsed range. -/
theorem claim_C8_witness : (3 : Nat) ≤ 7 :=
  claim_C8 "3-7".toList 3 7 (by rfl)


namespace Day1

/-! ### Day-1 lemmas: closed forms of the naive simulation -/

theorem naiveStep_R (pos : Nat) : naiveStep 1 pos = (pos + 1) % 100 := by
  rw [naiveStep, if_pos rfl]

theorem naiveStep_L (pos : Nat) : naiveStep (-1) pos = (pos + 99) % 100 := by
  rw [naiveStep, if_neg (by decide)]

theorem naiveRot_R (pos d : Nat) (h : pos < 100) :
    naiveRot 1 pos d = ((pos + d) % 100, (d + pos) / 100) := by
  induction d generalizing pos with
  | zero =>
    simp only [naiveRot, Nat.add_zero]
    rw [Nat.mod_eq_of_lt h]
    congr 1
    omega
  | succ d ih =>
    rw [naiveRot]
    simp only [naiveStep_R]
    rw [ih ((pos + 1) % 100) (Nat.mod_lt _ (by omega))]
    simp only [Prod.mk.injEq]
    constructor
    · omega
    · by_cases hp : (pos + 1) % 100 = 0
      · rw [if_pos hp]
        omega
      · rw [if_neg hp]
        omega

theorem naiveRot_L (pos d : Nat) (h : pos < 100) :
    naiveRot (-1) pos d = ((pos + 99 * d) % 100, (d + (100 - pos) % 100) / 100) := by
  induction d generalizing pos with
  | zero =>
    simp only [naiveRot, Nat.mul_zero, Nat.add_zero]
    rw [Nat.mod_eq_of_lt h]
    congr 1
    omega
  | succ d ih =>
    rw [naiveRot]
    simp only [naiveStep_L]
    rw [ih ((pos + 99) % 100) (Nat.mod_lt _ (by omega))]
    simp only [Prod.mk.injEq]
    constructor
    · omega
    · by_cases hp : (pos + 99) % 100 = 0
      · rw [if_pos hp]
        omega
      · rw [if_neg hp]
        omega

theorem naiveRot_fst_lt (dir : Int) (pos d : Nat) (h : pos < 100)
    (hdir : dir = 1 ∨ dir = -1) : (naiveRot dir pos d).1 < 100 := by
  rcases hdir with rfl | rfl
  · rw [naiveRot_R pos d h]
    exact Nat.mod_lt _ (by omega)
  · rw [naiveRot_L pos d h]
    exact Nat.mod_lt _ (by omega)

theorem naiveCount_nil (pos : Nat) : naiveCount pos [] = 0 := rfl

theorem naiveCount_cons (pos : Nat) (r : Int × Nat) (rest : List (Int × Nat)) :
    naiveCount pos (r :: rest)
      = (naiveRot r.1 pos r.2).2 + naiveCount (naiveRot r.1 pos r.2).1 rest := rfl

theorem naiveCount_single_R (pos d : Nat) (h : pos < 100) :
    naiveCount pos [((1 : Int), d)] = (d + pos) / 100 := by
  rw [naiveCount_cons, naiveRot_R pos d h, naiveCount_nil]
  simp

theorem i64AsU64_natCast (n : Nat) (h : n < 2 ^ 64) : i64AsU64 (n : Int) = n := by
  rw [i64AsU64, Int.emod_eq_of_lt (by positivity) (by exact_mod_cast h)]
  exact Int.toNat_natCast n

theorem natCast_tdiv100 (a : Nat) : (a : Int).tdiv (100 : Int) = ((a / 100 : Nat) : Int) :=
  rfl

theorem natCast_tmod100 (a : Nat) : (a : Int).tmod (100 : Int) = ((a % 100 : Nat) : Int) :=
  rfl

/-- One `puzzle2` iteration computes exactly what the naive unit-step
simulation computes (modulo the `u64` wrap of the accumulator), whenever the
distance fits in `i64`. -/
theorem step2_eq (pos : Nat) (hpos : pos < 100) (dir : Int) (hdir : dir = 1 ∨ dir = -1)
    (dist : Nat) (hdist : dist < 2 ^ 63) (zc : Nat) :
    step2 ((pos : Int), zc) (dir, dist)
      = (((naiveRot dir pos dist).1 : Int),
          (zc + (naiveRot dir pos dist).2) % 2 ^ 64) := by
  have hc : u64AsI64 dist = (dist : Int) := by rw [u64AsI64, if_pos hdist]
  have hq : (dist : Int).tdiv 100 = ((dist / 100 : Nat) : Int) := natCast_tdiv100 dist
  have hr : (dist : Int).tmod 100 = ((dist % 100 : Nat) : Int) := natCast_tmod100 dist
  have hqu : i64AsU64 ((dist / 100 : Nat) : Int) = dist / 100 :=
    i64AsU64_natCast _ (by omega)
  rcases hdir with rfl | rfl
  · simp only [step2, hc, hq, hr, hqu]
    rw [naiveRot_R pos dist hpos]
    simp only [Prod.mk.injEq]
    constructor
    · push_cast
      omega
    · split
      · rename_i hcond
        rcases hcond with ⟨h0, ⟨habs, _⟩ | ⟨_, hge⟩⟩
        · exact absurd habs (by decide)
        · have h0' : pos ≠ 0 := fun hp => h0 (by exact_mod_cast hp)
          have hge' : 100 ≤ pos + dist % 100 := by exact_mod_cast hge
          omega
      · rename_i hcond
        have hkey : pos = 0 ∨ pos + dist % 100 < 100 := by
          by_contra hcontra
          push_neg at hcontra
          refine hcond ⟨by exact_mod_cast hcontra.1, Or.inr ⟨by trivial, ?_⟩⟩
          exact_mod_cast hcontra.2
        rcases hkey with h0 | hlt <;> omega
  · simp only [step2, hc, hq, hr, hqu]
    rw [naiveRot_L pos dist hpos]
    simp only [Prod.mk.injEq]
    constructor
    · push_cast
      omega
    · split
      · rename_i hcond
        rcases hcond with ⟨h0, ⟨_, hge⟩ | ⟨habs, _⟩⟩
        · have h0' : pos ≠ 0 := fun hp => h0 (by exact_mod_cast hp)
          have hge' : pos ≤ dist % 100 := by exact_mod_cast hge
          omega
        · exact absurd habs (by decide)
      · rename_i hcond
        have hkey : pos = 0 ∨ dist % 100 < pos := by
          by_contra hcontra
          push_neg at hcontra
          refine hcond ⟨by exact_mod_cast hcontra.1, Or.inl ⟨by trivial, ?_⟩⟩
          exact_mod_cast hcontra.2
        rcases hkey with h0 | hlt <;> omega

theorem foldl_step2_eq (rots : List (Int × Nat)) :
    ∀ (pos zc : Nat), pos < 100 → zc < 2 ^ 64 →
    (∀ r ∈ rots, (r.1 = 1 ∨ r.1 = -1) ∧ r.2 < 2 ^ 63) →
    ∃ pfin : Nat, pfin < 100 ∧
      rots.foldl step2 ((pos : Int), zc)
        = ((pfin : Int), (zc + naiveCount pos rots) % 2 ^ 64) := by
  induction rots with
  | nil =>
    intro pos zc h hzc _
    refine ⟨pos, h, ?_⟩
    simp only [List.foldl_nil, naiveCount, Prod.mk.injEq]
    refine ⟨trivial, ?_⟩
    omega
  | cons r rest ih =>
    intro pos zc h hzc hall
    obtain ⟨hdir, hdist⟩ := hall r (List.mem_cons_self _ _)
    obtain ⟨d, dist⟩ := r
    rw [List.foldl_cons, step2_eq pos h d hdir dist hdist zc]
    obtain ⟨pfin, hfin, heq⟩ := ih (naiveRot d pos dist).1
      ((zc + (naiveRot d pos dist).2) % 2 ^ 64)
      (naiveRot_fst_lt d pos dist h hdir)
      (Nat.mod_lt _ (by norm_num))
      (fun w hw => hall w (List.mem_cons_of_mem _ hw))
    refine ⟨pfin, hfin, ?_⟩
    rw [heq,
        show naiveCount pos ((d, dist) :: rest)
          = (naiveRot d pos dist).2 + naiveCount (naiveRot d pos dist).1 rest from rfl]
    simp only [Prod.mk.injEq]
    refine ⟨trivial, ?_⟩
    rw [Nat.mod_add_mod]
    congr 1
    omega

theorem parseRotation_dir (s : List Char) (r : Int × Nat) (h : parseRotation s = some r) :
    r.1 = 1 ∨ r.1 = -1 := by
  unfold parseRotation at h
  split at h
  · split at h
    · simp at h
    · rw [Option.some_inj] at h
      subst h
      right
      rfl
  · split at h
    · simp at h
    · rw [Option.some_inj] at h
      subst h
      left
      rfl
  · simp at h

theorem parsed_dirs (rots : List (List Char)) :
    ∀ (parsed : List (Int × Nat)), rots.mapM parseRotation = some parsed →
      ∀ r ∈ parsed, r.1 = 1 ∨ r.1 = -1 := by
  induction rots with
  | nil =>
    intro parsed h r hr
    simp only [List.mapM_nil, Option.pure_def, Option.some_inj] at h
    subst h
    simp at hr
  | cons s rest ih =>
    intro parsed h r hr
    rw [List.mapM_cons] at h
    cases hps : parseRotation s with
    | none => rw [hps] at h; simp at h
    | some r0 =>
      rw [hps] at h
      cases hrest : rest.mapM parseRotation with
      | none => rw [hrest] at h; simp at h
      | some prest =>
        rw [hrest] at h
        simp only [Option.pure_def, Option.bind_eq_bind, Option.some_bind,
          Option.some_inj] at h
        subst h
        rcases List.mem_cons.mp hr with rfl | hmem
        · exact parseRotation_dir s r hps
        · exact ih prest hrest r hmem

/-- The rotation strings of the day-1 test. -/
def testRotations : List (List Char) :=
  ["L68", "L30", "R48", "L5", "R60", "L55", "L1", "L99", "R14", "L82"].map String.toList

end Day1


/-- **C2** (corrected) For every starting position 0-99 and every list of
well-formed rotation strings whose distances are below `2^63` and whose
naive zero-crossing total fits in a `u64`, day 1 `puzzle2` returns exactly
the number of unit steps at which the naive one-step-at-a-time simulation
points at 0.  For distances of `2^63` and above the `u64 as i64` cast
wraps and the equivalence fails (see the counterexample); for totals of
`2^64` and above the `u64` accumulator itself wraps.  On the test
rotations from position 50, `puzzle1` returns 3 and `puzzle2` returns 6. -/
theorem claim_C2 :
    (∀ (init : Nat) (rots : List (List Char)) (parsed : List (Int × Nat)),
      init ≤ 99 → rots.mapM Day1.parseRotation = some parsed →
      (∀ r ∈ parsed, r.2 < 2 ^ 63) →
      Day1.naiveCount init parsed < 2 ^ 64 →
      Day1.puzzle2 init rots = some (Day1.naiveCount init parsed))
    ∧ Day1.puzzle1 50 Day1.testRotations = some 3
    ∧ Day1.puzzle2 50 Day1.testRotations = some 6 := by
  refine ⟨?_, by decide, by decide⟩
  intro init rots parsed hinit hparse hdist htotal
  simp only [Day1.puzzle2]
  rw [if_neg (by omega), hparse]
  obtain ⟨pfin, hfin, heq⟩ := Day1.foldl_step2_eq parsed init 0 (by omega) (by norm_num)
    (fun r hr => ⟨Day1.parsed_dirs rots parsed hparse r hr, hdist r hr⟩)
  show some ((parsed.foldl Day1.step2 ((init : Int), 0)).2)
    = some (Day1.naiveCount init parsed)
  rw [heq]
  show some ((0 + Day1.naiveCount init parsed) % 2 ^ 64)
    = some (Day1.naiveCount init parsed)
  congr 1
  omega

/-- Counterexample for C2 as stated: the rotation `R9223372036854775808`
(distance `2^63`) is well-formed, yet the code wraps the distance to a
negative `i64` and returns 18354510353341003858 zero-crossings instead of
the naive simulation's 92233720368547758. -/
theorem claim_C2_counterexample :
    Day1.puzzle2 50 ["R9223372036854775808".toList] = some 18354510353341003858
      ∧ ["R9223372036854775808".toList].mapM Day1.parseRotation = some [(1, 2 ^ 63)]
      ∧ Day1.naiveCount 50 [(1, 2 ^ 63)] = 92233720368547758
      ∧ (18354510353341003858 : Nat) ≠ 92233720368547758 := by
  refine ⟨by decide, by decide, ?_, by decide⟩
  exact (Day1.naiveCount_single_R 50 (2 ^ 63) (by omega)).trans (by norm_num)

/-- Witness for C2: a single small rotation, where the code's answer equals
the naive simulation. -/
theorem claim_C2_witness :
    Day1.puzzle2 50 ["L68".toList] = some (Day1.naiveCount 50 [(-1, 68)]) :=
  claim_C2.1 50 ["L68".toList] [(-1, 68)] (by omega) (by decide) (by decide) (by decide)


namespace Day3

/-! ### Day-3 lemmas: the two-slot greedy is the maximal 2-digit subsequence -/

theorem foldrMax_append (l1 l2 : List Nat) :
    (l1 ++ l2).foldr max 0 = max (l1.foldr max 0) (l2.foldr max 0) := by
  induction l1 with
  | nil => simp
  | cons x t ih =>
    simp only [List.cons_append, List.foldr_cons, ih]
    omega

theorem maxD_nil : maxD [] = 0 := rfl

theorem maxD_cons (d : Nat) (l : List Nat) : maxD (d :: l) = max d (maxD l) := rfl

theorem maxD_reverse (l : List Nat) : maxD l.reverse = maxD l := by
  induction l with
  | nil => rfl
  | cons d t ih =>
    rw [List.reverse_cons, maxD_cons, ← ih,
        show maxD (t.reverse ++ [d]) = (t.reverse ++ [d]).foldr max 0 from rfl,
        foldrMax_append,
        show (([d] : List Nat)).foldr max 0 = max d 0 from rfl,
        show (t.reverse).foldr max 0 = maxD t.reverse from rfl]
    omega

theorem maxD_le (l : List Nat) (c : Nat) (h : ∀ x ∈ l, x ≤ c) : maxD l ≤ c := by
  induction l with
  | nil => exact Nat.zero_le c
  | cons x t ih =>
    rw [maxD_cons]
    have hx := h x (List.mem_cons_self _ _)
    have ht := ih (fun y hy => h y (List.mem_cons_of_mem _ hy))
    omega

theorem foldrMax_map_add (c : Nat) (l : List Nat) (h : l ≠ []) :
    ((l.map (fun x => c + x)).foldr max 0) = c + maxD l := by
  induction l with
  | nil => exact absurd rfl h
  | cons x t ih =>
    rw [List.map_cons, List.foldr_cons, maxD_cons]
    rcases t with _ | ⟨y, t2⟩
    · rw [show ((([] : List Nat)).map (fun x => c + x)).foldr max 0 = 0 from rfl, maxD_nil]
      omega
    · rw [ih (by simp)]
      omega

theorem maxSubseq2_nil : maxSubseq 2 [] = 0 := rfl

theorem maxSubseq2_single (d : Nat) : maxSubseq 2 [d] = 0 := by
  rw [maxSubseq, show (2 : Nat) = 1 + 1 from rfl, List.sublistsLen_succ_cons,
      List.sublistsLen_one]
  rfl

theorem maxSubseq2_cons (d : Nat) (rest : List Nat) (h : rest ≠ []) :
    maxSubseq 2 (d :: rest) = max (10 * d + maxD rest) (maxSubseq 2 rest) := by
  have hf : ((subseqVal ∘ List.cons d) ∘ fun x => [x]) = fun x => 10 * d + x := by
    funext x
    show 10 * (10 * 0 + d) + x = 10 * d + x
    ring
  rw [maxSubseq, show (2 : Nat) = 1 + 1 from rfl, List.sublistsLen_succ_cons,
      List.map_append, foldrMax_append, List.sublistsLen_one, List.map_map, List.map_map, hf,
      foldrMax_map_add (10 * d) rest.reverse (by simpa using h), maxD_reverse,
      show List.foldr max 0 (List.map subseqVal (List.sublistsLen (1 + 1) rest))
        = maxSubseq 2 rest from rfl,
      show maxSubseq (1 + 1) rest = maxSubseq 2 rest from rfl]
  omega

theorem subseqVal_acc (s : List Nat) :
    ∀ a : Nat, s.foldl (fun acc d => 10 * acc + d) a = a * 10 ^ s.length + subseqVal s := by
  induction s with
  | nil =>
    intro a
    simp [subseqVal]
  | cons d t ih =>
    intro a
    rw [List.foldl_cons, ih (10 * a + d),
        show subseqVal (d :: t) = (d :: t).foldl (fun acc d => 10 * acc + d) 0 from rfl,
        List.foldl_cons, ih (10 * 0 + d), List.length_cons]
    ring

theorem subseqVal_cons (d : Nat) (s : List Nat) :
    subseqVal (d :: s) = d * 10 ^ s.length + subseqVal s := by
  rw [show subseqVal (d :: s) = s.foldl (fun acc d => 10 * acc + d) (10 * 0 + d) from rfl,
      subseqVal_acc]
  ring

theorem sublistsLen_nil_of_lt (k : Nat) (l : List Nat) (h : l.length < k) :
    List.sublistsLen k l = [] := by
  rw [List.eq_nil_iff_forall_not_mem]
  intro s hs
  rw [List.mem_sublistsLen] at hs
  have := hs.1.length_le
  omega

theorem sublistsLen_ne_nil (k : Nat) (l : List Nat) (h : k ≤ l.length) :
    List.sublistsLen k l ≠ [] := by
  intro hcon
  have hmem : l.take k ∈ List.sublistsLen k l := by
    rw [List.mem_sublistsLen]
    exact ⟨List.take_sublist k l, by rw [List.length_take]; omega⟩
  rw [hcon] at hmem
  simp at hmem

theorem bestK_eq (l : List Nat) : ∀ k : Nat, bestK k l = maxSubseq k l := by
  induction l with
  | nil =>
    intro k
    match k with
    | 0 =>
      rw [show bestK 0 [] = 0 from rfl, maxSubseq, List.sublistsLen_zero]
      rfl
    | k + 1 =>
      rw [show bestK (k + 1) [] = 0 from rfl, maxSubseq, List.sublistsLen_succ_nil]
      rfl
  | cons d rest ih =>
    intro k
    match k with
    | 0 =>
      rw [show bestK 0 (d :: rest) = 0 from rfl, maxSubseq, List.sublistsLen_zero]
      rfl
    | k + 1 =>
      rw [bestK, maxSubseq, List.sublistsLen_succ_cons, List.map_append, foldrMax_append,
          show List.foldr max 0 (List.map subseqVal (List.sublistsLen (k + 1) rest))
            = maxSubseq (k + 1) rest from rfl]
      by_cases hlen : rest.length < k
      · rw [if_pos hlen, sublistsLen_nil_of_lt k rest hlen]
        rw [show List.foldr max 0 (List.map subseqVal (List.map (List.cons d) ([] : List (List Nat)))) = 0 from rfl]
        rw [ih (k + 1)]
        omega
      · rw [if_neg hlen]
        push_neg at hlen
        have hmapeq : List.map subseqVal (List.map (List.cons d) (List.sublistsLen k rest))
            = List.map (fun x => d * 10 ^ k + x) (List.map subseqVal (List.sublistsLen k rest)) := by
          rw [List.map_map, List.map_map]
          refine List.map_congr_left ?_
          intro s hs
          rw [List.mem_sublistsLen] at hs
          show subseqVal (d :: s) = d * 10 ^ k + subseqVal s
          rw [subseqVal_cons, hs.2]
        rw [hmapeq, foldrMax_map_add _ _ (by
          intro hcon
          exact sublistsLen_ne_nil k rest hlen (by
            rcases hmap : List.sublistsLen k rest with _ | _
            · rfl
            · rw [hmap] at hcon
              simp at hcon))]
        rw [ih (k + 1)]
        rw [show maxD (List.map subseqVal (List.sublistsLen k rest))
              = maxSubseq k rest from rfl, ih k]

theorem maxD_le_maxSubseq2 (l : List Nat) (h : 2 ≤ l.length) :
    maxD l ≤ maxSubseq 2 l := by
  match l with
  | d :: e :: t =>
    rw [maxSubseq2_cons d (e :: t) (by simp), maxD_cons]
    omega

theorem greedy2_le (l : List Nat) :
    ∀ a b : Nat, a ≤ 9 → b ≤ 9 → (∀ d ∈ l, d ≤ 9) →
      (greedy2 l a b).1 ≤ 9 ∧ (greedy2 l a b).2 ≤ 9 := by
  induction l with
  | nil => intro a b ha hb _; exact ⟨ha, hb⟩
  | cons d rest ih =>
    intro a b ha hb hd
    have hd9 : d ≤ 9 := hd d (List.mem_cons_self _ _)
    have hdr : ∀ x ∈ rest, x ≤ 9 := fun x hx => hd x (List.mem_cons_of_mem _ hx)
    rw [greedy2]
    by_cases h1 : d > a ∧ rest ≠ []
    · rw [if_pos h1]
      exact ih d 0 hd9 (by omega) hdr
    · rw [if_neg h1]
      by_cases h2 : d > b
      · rw [if_pos h2]
        exact ih a d ha hd9 hdr
      · rw [if_neg h2]
        exact ih a b ha hb hdr

theorem greedy2_val (l : List Nat) :
    ∀ a b : Nat, b ≤ a → a ≤ 9 → (∀ d ∈ l, d ≤ 9) →
      10 * (greedy2 l a b).1 + (greedy2 l a b).2
        = max (10 * a + max b (maxD l)) (maxSubseq 2 l) := by
  induction l with
  | nil =>
    intro a b hba _ _
    rw [maxSubseq2_nil, maxD_nil]
    show 10 * a + b = max (10 * a + max b 0) 0
    omega
  | cons d rest ih =>
    intro a b hba ha hd
    have hd9 : d ≤ 9 := hd d (List.mem_cons_self _ _)
    have hdr : ∀ x ∈ rest, x ≤ 9 := fun x hx => hd x (List.mem_cons_of_mem _ hx)
    rw [greedy2, maxD_cons]
    by_cases hrest : rest = []
    · subst hrest
      rw [if_neg (by simp), maxSubseq2_single, maxD_nil]
      by_cases h2 : d > b
      · rw [if_pos h2]
        show 10 * a + d = max (10 * a + max b (max d 0)) 0
        omega
      · rw [if_neg h2]
        show 10 * a + b = max (10 * a + max b (max d 0)) 0
        omega
    · rw [maxSubseq2_cons d rest hrest]
      have hM9 : maxD rest ≤ 9 := maxD_le rest 9 hdr
      by_cases hda : d > a
      · rw [if_pos ⟨hda, hrest⟩, ih d 0 (by omega) hd9 hdr]
        omega
      · rw [if_neg (fun hcon => hda hcon.1)]
        by_cases hdb : d > b
        · rw [if_pos hdb, ih a d (by omega) ha hdr]
          omega
        · rw [if_neg hdb, ih a b hba ha hdr]
          omega

theorem p1Go_eq (n : Nat) (hn : 2 ≤ n) :
    ∀ (s : List Nat) (i a b : Nat), i + s.length = n →
      p1Go s i (n - 1 - 1) (a, b) = greedy2 s a b := by
  intro s
  induction s with
  | nil => intro i a b _; rfl
  | cons d rest ih =>
    intro i a b hlen
    simp only [List.length_cons] at hlen
    rw [p1Go, greedy2]
    have hiff : (i ≤ n - 1 - 1) ↔ (rest ≠ []) := by
      have h0 : (rest ≠ []) ↔ 0 < rest.length := by
        rw [List.length_pos]
      rw [h0]
      constructor
      · intro hle
        omega
      · intro hpos
        omega
    by_cases h1 : d > a ∧ rest ≠ []
    · rw [if_pos ⟨h1.1, hiff.mpr h1.2⟩, if_pos h1]
      exact ih (i + 1) d 0 (by omega)
    · rw [if_neg (fun hcon => h1 ⟨hcon.1, hiff.mp hcon.2⟩), if_neg h1]
      by_cases h2 : d > b
      · rw [if_pos h2, if_pos h2]
        exact ih (i + 1) a d (by omega)
      · rw [if_neg h2, if_neg h2]
        exact ih (i + 1) a b (by omega)

theorem decLen_le9 (y : Nat) (h : y ≤ 9) : (Day2.decDigits y).length = 1 := by
  interval_cases y <;> rfl

theorem decCat_pair (x y : Nat) (hy : y ≤ 9) : decCatList [x, y] = 10 * x + y := by
  show (0 * 10 ^ (Day2.decDigits x).length + x) * 10 ^ (Day2.decDigits y).length + y
    = 10 * x + y
  rw [decLen_le9 y hy]
  ring

/-- `puzzle1`'s per-line number is the maximal 2-digit subsequence value. -/
theorem puzzle1Line_eq (digits : List Nat) (h2 : 2 ≤ digits.length)
    (hd : ∀ d ∈ digits, d ≤ 9) : puzzle1Line digits = maxSubseq 2 digits := by
  show decCatList [(p1Go digits 0 (digits.length - 1 - 1) (0, 0)).1,
    (p1Go digits 0 (digits.length - 1 - 1) (0, 0)).2] = _
  rw [p1Go_eq digits.length (by omega) digits 0 0 0 (by omega)]
  have hb := greedy2_le digits 0 0 (by omega) (by omega) hd
  rw [decCat_pair _ _ hb.2, greedy2_val digits 0 0 le_rfl (by omega) hd]
  have hms := maxD_le_maxSubseq2 digits h2
  omega

/-! ### Per-line evaluations of the day-3 test input -/

theorem p2_test_line1 : puzzle2Line (lineDigits "987654321111111".toList)
    = 987654321111 := by decide

theorem p2_test_line2 : puzzle2Line (lineDigits "811111111111119".toList)
    = 811111111119 := by decide

theorem p2_test_line3 : puzzle2Line (lineDigits "234234234234278".toList)
    = 434234234278 := by decide

theorem p2_test_line4 : puzzle2Line (lineDigits "818181911112111".toList)
    = 888911112111 := by decide

theorem test_split : List.splitOn '\n' testInput
    = ["987654321111111".toList, "811111111111119".toList,
       "234234234234278".toList, "818181911112111".toList] := by decide

theorem puzzle1_test : puzzle1 testInput = 357 := by decide

theorem puzzle2_test : puzzle2 testInput = 3121910778619 := by
  show ((List.splitOn '\n' testInput).map
    (fun s => puzzle2Line (lineDigits s))).sum = 3121910778619
  rw [test_split]
  simp only [List.map_cons, List.map_nil, List.sum_cons, List.sum_nil]
  rw [p2_test_line1, p2_test_line2, p2_test_line3, p2_test_line4]
  norm_num

end Day3

/-- **C3** (corrected) Day 3 `puzzle1`'s per-line 2-digit number equals the
maximum over all length-2 subsequences of the line's digits, and on the test
input `puzzle1` returns 357 and `puzzle2` returns 3121910778619; but for
k = 12 the greedy's stale slots can violate subsequence order, so
`puzzle2`'s per-line number is *not* always the maximum 12-digit
subsequence. -/
theorem claim_C3 :
    (∀ digits : List Nat, 2 ≤ digits.length → (∀ d ∈ digits, d ≤ 9) →
       Day3.puzzle1Line digits = Day3.maxSubseq 2 digits)
    ∧ Day3.puzzle1 Day3.testInput = 357
    ∧ Day3.puzzle2 Day3.testInput = 3121910778619 :=
  ⟨Day3.puzzle1Line_eq, Day3.puzzle1_test, Day3.puzzle2_test⟩

/-- Counterexample for C3 as stated: on the 15-digit line
`111200110000000`, `puzzle2`'s greedy builds 201110000000 — larger than the
true maximum 12-digit subsequence 200110000000, so the two differ. -/
theorem claim_C3_counterexample :
    Day3.puzzle2Line Day3.cexLine = 201110000000
      ∧ Day3.maxSubseq 12 Day3.cexLine = 200110000000
      ∧ (201110000000 : Nat) ≠ 200110000000 := by
  refine ⟨by decide, ?_, by decide⟩
  rw [← Day3.bestK_eq]
  decide

/-- Witness for C3: a concrete two-digit line. -/
theorem claim_C3_witness : Day3.puzzle1Line [9, 8] = Day3.maxSubseq 2 [9, 8] :=
  claim_C3.1 [9, 8] (by decide) (by decide)

namespace Day4

/-! ### Day 4: the erosion loop reaches a genuine fixed point -/

theorem getD_map_range {α : Type} (f : Nat → α) (n i : Nat) (d : α) (h : i < n) :
    ((List.range n).map f).getD i d = f i := by
  have hl : i < ((List.range n).map f).length := by simpa using h
  rw [List.getD_eq_getElem _ _ hl]
  simp

theorem length_markPass (m : List (List Char)) : (markPass m).length = m.length := by
  simp [markPass]

theorem lenJ_markPass (m : List (List Char)) (hm : m ≠ []) :
    lenJ (markPass m) = lenJ m := by
  cases m with
  | nil => exact absurd rfl hm
  | cons x xs => simp [markPass, lenJ, List.range_succ_eq_map]

theorem cell_markPass (m : List (List Char)) (i j : Nat) (hi : i < m.length)
    (hj : j < lenJ m) :
    cell (markPass m) i j = if removableB m i j then 'x' else cell m i j := by
  unfold cell markPass
  rw [getD_map_range _ _ _ _ hi, getD_map_range _ _ _ _ hj]
  rfl

theorem filter_length_split (l : List Nat) (p q : Nat → Bool)
    (h : ∀ x, q x = true → p x = true) :
    (l.filter p).length
      = (l.filter q).length + (l.filter (fun x => !q x && p x)).length := by
  induction l with
  | nil => simp
  | cons a l ih =>
    cases hq : q a with
    | true =>
      have hp : p a = true := h a hq
      simp [List.filter_cons, hq, hp, ih]
      omega
    | false =>
      cases hp : p a with
      | true =>
        simp [List.filter_cons, hq, hp, ih]
        omega
      | false => simp [List.filter_cons, hq, hp, ih]

theorem sum_map_add (l : List Nat) (f g : Nat → Nat) :
    (l.map (fun i => f i + g i)).sum = (l.map f).sum + (l.map g).sum := by
  induction l with
  | nil => simp
  | cons a l ih =>
    simp [List.map_cons, List.sum_cons, ih]
    omega

/-- Every marking pass removes exactly the removable `'@'` cells: the box
`'@'`-count splits into the marked cells and the `'@'` cells of the next
grid. -/
theorem boxCount_split (m : List (List Char)) :
    boxCount m = removableCount m + boxCount (markPass m) := by
  rcases eq_or_ne m [] with rfl | hm
  · simp [boxCount, removableCount, markPass]
  · unfold boxCount removableCount
    rw [length_markPass, lenJ_markPass m hm, ← sum_map_add]
    refine congrArg List.sum (List.map_congr_left ?_)
    intro i hi
    have hi' : i < m.length := List.mem_range.mp hi
    have hsplit := filter_length_split (List.range (lenJ m))
      (fun j => decide (cell m i j = '@')) (fun j => removableB m i j)
      (by
        intro x hx
        have hc := of_decide_eq_true hx
        exact decide_eq_true hc.1)
    rw [hsplit]
    congr 1
    refine congrArg List.length (List.filter_congr ?_)
    intro j hj
    have hj' : j < lenJ m := List.mem_range.mp hj
    rw [cell_markPass m i j hi' hj']
    cases hr : removableB m i j <;> simp [hr]

theorem boxCount_markPass_lt (m : List (List Char)) (h : removableCount m ≠ 0) :
    boxCount (markPass m) < boxCount m := by
  have := boxCount_split m
  omega

/-- With more passes budgeted than `'@'` cells, the budget never runs out:
the loop genuinely stops at a grid with no removable cell. -/
theorem removableCount_finalAux : ∀ (fuel : Nat) (m : List (List Char)),
    boxCount m < fuel → removableCount (finalAux fuel m) = 0 := by
  intro fuel
  induction fuel with
  | zero => intro m hm; exact absurd hm (Nat.not_lt_zero _)
  | succ fuel ih =>
    intro m hm
    by_cases h0 : removableCount m = 0
    · simp [finalAux, h0]
    · simp only [finalAux, if_neg h0]
      apply ih
      have := boxCount_markPass_lt m h0
      omega

theorem removableCount_finalGrid (m : List (List Char)) :
    removableCount (finalGrid m) = 0 :=
  removableCount_finalAux _ m (Nat.lt_succ_self _)

theorem erodeAux_fixed (fuel : Nat) (m : List (List Char))
    (h : removableCount m = 0) : erodeAux (fuel + 1) m = 0 := by
  simp [erodeAux, h]

theorem puzzle2_finalGrid (m : List (List Char)) : puzzle2 (finalGrid m) = 0 :=
  erodeAux_fixed _ _ (removableCount_finalGrid m)

/-- Sanity: the embedded `puzzle1` reproduces the unit test (13 removals). -/
theorem erosion_puzzle1_test : puzzle1 testInput = 13 := by decide

/-- Sanity: the embedded `puzzle2` reproduces the unit test (43 removals). -/
theorem erosion_puzzle2_test : puzzle2 testInput = 43 := by decide

end Day4

/-- **C9** (confirmed) Grid erosion is idempotent at its fixed point: for
every nonempty rectangular grid (the inputs on which the Rust code runs
without panicking), the grid in which day 4 `puzzle2`'s removal loop stops
has no removable cell, a single `puzzle1` pass on it counts 0, and running
`puzzle2` again on it returns 0. -/
theorem claim_C9 (g : List (List Char)) (_hg : g ≠ [])
    (_hrect : ∀ row ∈ g, row.length = Day4.lenJ g) :
    Day4.removableCount (Day4.finalGrid g) = 0 ∧
    Day4.puzzle1 (Day4.finalGrid g) = 0 ∧
    Day4.puzzle2 (Day4.finalGrid g) = 0 :=
  ⟨Day4.removableCount_finalGrid g, Day4.removableCount_finalGrid g,
    Day4.puzzle2_finalGrid g⟩

/-- Witness for C9: the 10×10 test grid of day 4. -/
theorem claim_C9_witness :
    Day4.removableCount (Day4.finalGrid Day4.testInput) = 0 ∧
    Day4.puzzle1 (Day4.finalGrid Day4.testInput) = 0 ∧
    Day4.puzzle2 (Day4.finalGrid Day4.testInput) = 0 :=
  claim_C9 Day4.testInput (by decide) (by decide)

namespace Day7

theorem scanCols_tail_ne (data : List Char) (columns r : Nat) :
    ∀ (cs : List Nat), (∀ c ∈ cs, c ≠ 0) →
      ∀ rays toRemove toAdd splits,
        scanCols data columns r cs rays toRemove toAdd splits ≠ none := by
  intro cs
  induction cs with
  | nil =>
    intro _ rays toRemove toAdd splits
    simp [scanCols]
  | cons c cs ih =>
    intro hcs rays toRemove toAdd splits
    simp only [scanCols]
    split
    · simp
    · split
      · cases c with
        | zero => exact absurd rfl (hcs 0 (by simp))
        | succ c1 =>
          exact ih (fun x hx => hcs x (List.mem_cons_of_mem _ hx)) rays _ _ _
      · exact ih (fun x hx => hcs x (List.mem_cons_of_mem _ hx)) rays toRemove toAdd splits

theorem scanCols_range_none_iff (data : List Char) (columns r : Nat) (rays : List Nat) :
    scanCols data columns r (List.range columns) rays [] [] 0 = none ↔
      rowPanics data columns r rays = true := by
  cases columns with
  | zero => simp [scanCols, rowPanics]
  | succ n =>
    rw [List.range_succ_eq_map]
    simp only [scanCols]
    split
    · rename_i hS
      simp only [rowPanics]
      constructor
      · intro h
        simp at h
      · intro h
        exfalso
        have h2 := of_decide_eq_true h
        have h3 : data.getD (r * (n + 1) + 0) '.' = '^' := by
          simpa using h2.2.1
        rw [hS.2] at h3
        exact absurd h3 (by decide)
    · split
      · rename_i hS hHit
        simp only [rowPanics]
        constructor
        · intro _
          apply decide_eq_true
          refine ⟨Nat.succ_pos n, ?_, hHit.2⟩
          simpa using hHit.1
        · intro _
          trivial
      · rename_i hS hHit
        have hne := scanCols_tail_ne data (n + 1) r ((List.range n).map Nat.succ)
          (by simp) rays [] [] 0
        simp only [rowPanics]
        constructor
        · intro h
          exact absurd h hne
        · intro h
          exfalso
          have h2 := of_decide_eq_true h
          exact hHit ⟨by simpa using h2.2.1, h2.2.2⟩

theorem runRows_fst (data : List Char) (columns : Nat) :
    ∀ (rs keys : List Nat) (a b : Nat),
      (runRows data columns rs keys a).map (fun p => p.1)
        = (runRows data columns rs keys b).map (fun p => p.1) := by
  intro rs
  induction rs with
  | nil =>
    intro keys a b
    rfl
  | cons r rs ih =>
    intro keys a b
    simp only [runRows]
    cases h : scanCols data columns r (List.range columns) keys [] [] 0 with
    | none => rfl
    | some p =>
      obtain ⟨rays2, s⟩ := p
      exact ih rays2 (a + s) (b + s)

theorem runRows_isSome_shift (data : List Char) (columns : Nat)
    (rs keys : List Nat) (a b : Nat) :
    (runRows data columns rs keys a).isSome = (runRows data columns rs keys b).isSome := by
  have hfst := runRows_fst data columns rs keys a b
  cases h1 : runRows data columns rs keys a with
  | none =>
    rw [h1] at hfst
    cases h2 : runRows data columns rs keys b with
    | none => rfl
    | some q =>
      rw [h2] at hfst
      simp at hfst
  | some p =>
    rw [h1] at hfst
    cases h2 : runRows data columns rs keys b with
    | none =>
      rw [h2] at hfst
      simp at hfst
    | some q => rfl

theorem runRows_complete (data : List Char) (columns : Nat) :
    ∀ (rs keys : List Nat),
      (∀ k, k < rs.length → hitAux data columns rs keys k = false) →
      (runRows data columns rs keys 0).isSome = true := by
  intro rs
  induction rs with
  | nil =>
    intro keys _
    rfl
  | cons r rs ih =>
    intro keys hsafe
    have h0 : rowPanics data columns r keys = false := by
      have := hsafe 0 (Nat.succ_pos _)
      simpa [hitAux, runRows] using this
    have hscan : scanCols data columns r (List.range columns) keys [] [] 0 ≠ none := by
      intro hcontra
      rw [scanCols_range_none_iff] at hcontra
      rw [h0] at hcontra
      exact Bool.false_ne_true hcontra
    cases hks : scanCols data columns r (List.range columns) keys [] [] 0 with
    | none => exact absurd hks hscan
    | some p =>
      obtain ⟨keys2, s⟩ := p
      simp only [runRows, hks]
      rw [runRows_isSome_shift data columns rs keys2 (0 + s) 0]
      apply ih keys2
      intro k hk
      have hk1 := hsafe (k + 1) (Nat.succ_lt_succ hk)
      simp only [hitAux, List.take_succ_cons, List.drop_succ_cons] at hk1
      simp only [runRows, hks] at hk1
      simp only [hitAux]
      have hfst := runRows_fst data columns (rs.take k) keys2 (0 + s) 0
      cases h1 : runRows data columns (rs.take k) keys2 0 with
      | none => rfl
      | some p1 =>
        obtain ⟨rays, q⟩ := p1
        rw [h1] at hfst
        cases h2 : runRows data columns (rs.take k) keys2 (0 + s) with
        | none =>
          rw [h2] at hfst
          simp at hfst
        | some p2 =>
          obtain ⟨rays2, q2⟩ := p2
          rw [h2] at hfst
          rw [h2] at hk1
          have hray : rays2 = rays := by simpa using hfst
          subst hray
          cases h3 : rs.drop k with
          | nil => rfl
          | cons r2 rest =>
            rw [h3] at hk1
            exact hk1

theorem scanColsG_fst (data : List Char) (columns r : Nat) :
    ∀ (cs keys : List Nat) (root : Bool) (toRemove toAdd : List Nat) (splits : Nat),
      (scanColsG data columns r cs keys root toRemove toAdd).map (fun p => p.1)
        = (scanCols data columns r cs keys toRemove toAdd splits).map (fun p => p.1) := by
  intro cs
  induction cs with
  | nil =>
    intro keys root toRemove toAdd splits
    rfl
  | cons c cs ih =>
    intro keys root toRemove toAdd splits
    simp only [scanColsG, scanCols]
    split
    · rfl
    · split
      · cases c with
        | zero => rfl
        | succ c1 => exact ih keys root _ _ (splits + 1)
      · exact ih keys root toRemove toAdd splits

theorem runRowsG_isSome (data : List Char) (columns : Nat) :
    ∀ (rs keys : List Nat) (root : Bool) (splits : Nat),
      (runRowsG data columns rs keys root).isSome
        = (runRows data columns rs keys splits).isSome := by
  intro rs
  induction rs with
  | nil =>
    intro keys root splits
    rfl
  | cons r rs ih =>
    intro keys root splits
    have hfst := scanColsG_fst data columns r (List.range columns) keys root [] [] 0
    simp only [runRowsG, runRows]
    cases hg : scanColsG data columns r (List.range columns) keys root [] [] with
    | none =>
      rw [hg] at hfst
      cases hp : scanCols data columns r (List.range columns) keys [] [] 0 with
      | none => rfl
      | some q =>
        rw [hp] at hfst
        simp at hfst
    | some p =>
      obtain ⟨keys2, root2⟩ := p
      rw [hg] at hfst
      cases hp : scanCols data columns r (List.range columns) keys [] [] 0 with
      | none =>
        rw [hp] at hfst
        simp at hfst
      | some q =>
        obtain ⟨keys3, s⟩ := q
        rw [hp] at hfst
        have hkeys : keys2 = keys3 := by simpa using hfst
        subst hkeys
        exact ih keys2 root2 (splits + s)

theorem countRaySplits_isSome (data : List Char) (rows columns : Nat)
    (hsafe : ∀ k, k < (evenRows rows).length → col0Hit data rows columns k = false) :
    (countRaySplits data rows columns).isSome = true := by
  unfold countRaySplits
  cases h : runRows data columns (evenRows rows) [] 0 with
  | none =>
    have hc := runRows_complete data columns (evenRows rows) [] hsafe
    rw [h] at hc
    simp at hc
  | some p => rfl

theorem buildGraphTraversal_isSome (data : List Char) (rows columns : Nat)
    (hsafe : ∀ k, k < (evenRows rows).length → col0Hit data rows columns k = false) :
    (runRowsG data columns (evenRows rows) [] false).isSome = true := by
  rw [runRowsG_isSome data columns (evenRows rows) [] false 0]
  exact runRows_complete data columns (evenRows rows) [] hsafe

/-- Sanity: the embedded `count_ray_splits` reproduces the unit test (21
splits on the 16×16 test grid). -/
theorem raySplits_test : countRaySplits testInput 16 16 = some 21 := by decide

/-- Sanity: `build_graph`'s traversal completes on the test grid and finds
the root. -/
theorem buildGraph_test : (buildGraph testInput 16 16).isSome = true := by decide

end Day7

/-- **C10** (confirmed) On the well-formed 3-row, 2-column grid
`"S\n.\n^\n"` the start ray sits in column 0 and meets a `'^'` there, so
both `Grid::count_ray_splits` and `Grid::build_graph` evaluate `c - 1`
with `c = 0` on a `usize` and panic (`none`); and whenever no step of the
traversal meets a splitter aligned with an active ray in column 0
(`col0Hit` is everywhere `false`), the subtraction never underflows and
both traversals run to completion. -/
theorem claim_C10 :
    (Day7.countRaySplits Day7.cexData 3 2 = none
        ∧ Day7.buildGraph Day7.cexData 3 2 = none)
    ∧ ∀ (data : List Char) (rows columns : Nat),
        (∀ k, k < (Day7.evenRows rows).length →
            Day7.col0Hit data rows columns k = false) →
        (Day7.countRaySplits data rows columns).isSome = true
          ∧ (Day7.runRowsG data columns (Day7.evenRows rows) [] false).isSome = true :=
  ⟨⟨by decide, by decide⟩,
   fun data rows columns hsafe =>
     ⟨Day7.countRaySplits_isSome data rows columns hsafe,
      Day7.buildGraphTraversal_isSome data rows columns hsafe⟩⟩

/-- Witness for C10: a 3×4 grid whose single split happens in column 1,
so the precondition holds and both traversals complete. -/
theorem claim_C10_witness :
    (∀ k, k < (Day7.evenRows 3).length → Day7.col0Hit Day7.okData 3 4 k = false)
      ∧ (Day7.countRaySplits Day7.okData 3 4).isSome = true
      ∧ (Day7.runRowsG Day7.okData 4 (Day7.evenRows 3) [] false).isSome = true :=
  ⟨by decide, (claim_C10.2 Day7.okData 3 4 (by decide)).1,
    (claim_C10.2 Day7.okData 3 4 (by decide)).2⟩

end AoC
